import Mathlib

/-!
# Verification of the knapsack choice-distribution tool

Shallow embedding of `src/knapsack_distribution` (files `knapsack_item.py`,
`knapsack_instance.py`, `problem_type.py`).  Items, search-tree nodes and all
structural analyses (dominance, children, terminal and optimal-terminal sets)
are modelled as computable functions; the probability-distribution engine is
modelled over the exact reals, with Python's `math.exp` as `Real.exp`,
Python's `**` on non-negative floats as `Real.rpow`, and Python floats as
exact rationals/reals.  Machine floating point is replaced by exact real
arithmetic throughout; `math.isclose` is modelled with its documented
semantics (`|a-b| <= 1e-9 * max |a| |b|`, the default `rel_tol`/`abs_tol`).
Lean's total division (`x/0 = 0`) stands in for Python's division; every
division reached by the claims below is shown to have a non-zero divisor or
to occur with a zero numerator.
-/

namespace KD

/-- A `KnapsackItem` (`knapsack_item.py`): immutable value, strictly positive
weight, and a run-unique sequence id (`knapsack_item_id`).  The SHA-256 based
`__hash__` is injective on distinct ids, so item identity hashes are modelled
by the id itself. -/
structure KItem where
  value : ℕ
  weight : ℕ
  id : ℕ
deriving DecidableEq, Repr

/-- `KnapsackItem.density` (`value / weight`, exact). -/
def KItem.density (it : KItem) : ℚ := (it.value : ℚ) / (it.weight : ℚ)

/-- `KnapsackItem.__eq__`: density and value match. -/
def itemEqb (a b : KItem) : Bool := a.density == b.density && a.value == b.value

/-- `KnapsackItem.__gt__`: larger density, or equal density and larger value. -/
def itemGTb (a b : KItem) : Bool :=
  a.density > b.density || (a.density == b.density && a.value > b.value)

/-- The repr-visible content of an item (value, weight); `repr` does not show
the sequence id, so node keys canonicalise items by this pair. -/
def KItem.content (it : KItem) : ℕ × ℕ := (it.value, it.weight)

/-- One candidate `c` dominating `self` as tested inside
`KnapsackItem.set_dominance` (`knapsack_item.py` line 218): strictly better in
one coordinate and at least as good in the other, or `__eq__`-equal with a
lower sequence id. -/
def dominatesb (c self : KItem) : Bool :=
  (c.value > self.value && c.weight ≤ self.weight) ||
  (c.value ≥ self.value && c.weight < self.weight) ||
  (itemEqb c self && c.id < self.id)

/-- `KnapsackItem.set_dominance`: fails on self-dominance (own id among the
candidates), otherwise caches the set of dominating candidate ids. -/
def setDominance (self : KItem) (cands : List KItem) : Except Unit (Finset ℕ) :=
  if self.id ∈ cands.map KItem.id then .error () else
  .ok ((cands.filter (fun c => dominatesb c self)).map KItem.id).toFinset

/-- The cached dominating-id set of an item, as established once at root
construction: dominance of `it` against all other items of the root list
(`knapsack_instance.py` lines 194-196; positional removal of `it` itself,
which for ids without repetition is removal by id). -/
def cachedDom (rootItems : List KItem) (it : KItem) : Finset ℕ :=
  (((rootItems.filter (fun c => c.id ≠ it.id)).filter
      (fun c => dominatesb c it)).map KItem.id).toFinset

/-- `KnapsackItem.check_dominance` against a candidate list, using the cached
set established at the root. -/
def checkDom (rootItems : List KItem) (it : KItem) (cands : List KItem) : Bool :=
  cands.any (fun c => c.id ∈ cachedDom rootItems it)

end KD

namespace KD

/-- Stable insertion into a list already sorted by the strict order `gt`:
the new element goes in front of the first strictly greater element, hence
after every earlier equal element (Python's `sorted` is stable). -/
def insSorted (gt : KItem → KItem → Bool) (x : KItem) : List KItem → List KItem
  | [] => [x]
  | y :: ys => if gt y x then x :: y :: ys else y :: insSorted gt x ys

/-- Stable sort by the item order (`__gt__`), modelling Python `sorted`. -/
def sortItems (l : List KItem) : List KItem :=
  l.foldl (fun acc x => insSorted itemGTb x acc) []

/-- The root-reference-free part of a node's structural key
(`KnapsackInstance.create`, line 145): the eligible items canonicalised by
the stable content sort, the remaining capacity, the standing value, and the
identity hashes of the committed items in content-sorted order. -/
structure SKeyCore where
  elig : List (ℕ × ℕ)
  cap : ℕ
  sv : ℕ
  standing : List ℕ
deriving DecidableEq, Repr

/-- A node's full structural key: core plus the master (root) reference.  The
root's own key has `master = none` (Python `hash(None)`); every other node
references the root, which is itself determined by its core. -/
structure SKey where
  core : SKeyCore
  master : Option SKeyCore
deriving DecidableEq, Repr

/-- The construction arguments of a node, mirroring the fields of
`KnapsackInstance`: eligible items, remaining capacity, standing value,
committed items in path order, and the master reference. -/
structure Args where
  items : List KItem
  cap : ℕ
  sv : ℕ
  standing : List KItem
  master : Option SKeyCore
deriving DecidableEq, Repr

def structCore (a : Args) : SKeyCore :=
  ⟨(sortItems a.items).map KItem.content, a.cap, a.sv,
   (sortItems a.standing).map KItem.id⟩

def structKey (a : Args) : SKey := ⟨structCore a, a.master⟩

/-- Remove the element at position `i` (`items[:i] + items[i+1:]`). -/
def removeAt (l : List KItem) (i : ℕ) : List KItem := l.take i ++ l.drop (i + 1)

/-- The master reference handed to children: the current master, or the node
itself when it is the root (`_create_child_nodes`, line 249). -/
def childMaster (a : Args) : Option SKeyCore := some (a.master.getD (structCore a))

/-- The construction arguments of the child reached by adding item `it`,
where `pre ++ post = items[:i] + items[i+1:]` for the item's position `i`
(`_create_child_nodes`, lines 247-254). -/
def childArgs (a : Args) (pre post : List KItem) (it : KItem) : Args :=
  ⟨pre ++ post, a.cap - it.weight, a.sv + it.value,
   a.standing ++ [it], childMaster a⟩

/-- The loop of `_create_child_nodes`: walk the eligible items in order
(`pre` the items already passed), emitting one child per item whose weight
fits the remaining capacity. -/
def childListAux (a : Args) : List KItem → List KItem → List (KItem × Args)
  | _, [] => []
  | pre, it :: post =>
    (if it.weight ≤ a.cap then [(it, childArgs a pre post it)] else []) ++
    childListAux a (pre ++ [it]) post

/-- The feasible children of a node, one per eligible item whose weight fits
the remaining capacity, in item order (`_create_child_nodes` loop). -/
def childList (a : Args) : List (KItem × Args) := childListAux a [] a.items

/-- `_create_child_nodes`: `None` when exactly one item remains or when no
child is feasible, otherwise the non-empty child list. -/
def childNodes (a : Args) : Option (List (KItem × Args)) :=
  if a.items.length = 1 then none
  else if childList a = [] then none else some (childList a)

/-- `is_terminal_node`: the node has no children. -/
def isTerminal (a : Args) : Bool := (childNodes a).isNone

theorem childListAux_length {a : Args} {it : KItem} {c : Args} :
    ∀ {pre post : List KItem}, (it, c) ∈ childListAux a pre post →
      c.items.length + 1 = pre.length + post.length := by
  intro pre post
  induction post generalizing pre with
  | nil => intro h; cases h
  | cons x xs ih =>
    intro h
    rw [childListAux, List.mem_append] at h
    rcases h with h | h
    · by_cases hw : x.weight ≤ a.cap
      · rw [if_pos hw, List.mem_singleton] at h
        cases h
        simp [childArgs]
        omega
      · rw [if_neg hw] at h; cases h
    · have := ih h
      simpa [Nat.add_comm, Nat.add_left_comm] using this

theorem childList_length {a : Args} {it : KItem} {c : Args}
    (h : (it, c) ∈ childList a) : c.items.length + 1 = a.items.length := by
  have := childListAux_length h
  simpa using this

theorem childNodes_mem_length {a : Args} {cs : List (KItem × Args)}
    (h : childNodes a = some cs) {it : KItem} {c : Args} (hm : (it, c) ∈ cs) :
    c.items.length + 1 = a.items.length := by
  unfold childNodes at h
  split at h
  · cases h
  · split at h
    · cases h
    · cases h; exact childList_length hm

end KD

namespace KD

/-- `_non_dominated_items` (`knapsack_instance.py` lines 198-201): ids of the
eligible items not dominated by any other eligible item (positional removal of
the item itself). -/
def nonDomItems (R : List KItem) (a : Args) : Finset ℕ :=
  ((List.range a.items.length).filterMap (fun i =>
    match a.items[i]? with
    | none => none
    | some it => if checkDom R it (removeAt a.items i) then none else some it.id)).toFinset

/-- `_included_dominated_items` (line 203): committed items dominated within
the node's own remaining-item set. -/
def incDomItems (R : List KItem) (a : Args) : List KItem :=
  a.standing.filter (fun s => checkDom R s a.items)

/-- `_is_dominated` (line 204). -/
def isDomN (R : List KItem) (a : Args) : Bool := !(incDomItems R a).isEmpty

/-- `_terminal_nodes` (lines 210-216): identities of the terminal nodes
reachable strictly below this node (a terminal node's own set is empty). -/
def termKeys (a : Args) : Finset SKey :=
  match h : childNodes a with
  | none => ∅
  | some cs => cs.attach.foldl (fun acc x =>
      if isTerminal x.1.2 then insert (structKey x.1.2) acc
      else acc ∪ termKeys x.1.2) ∅
termination_by a.items.length
decreasing_by
  all_goals
    have := @childNodes_mem_length a _ h x.1.1 x.1.2 (by simpa using x.2)
    omega

/-- `_optimal_terminal_node_value` (line 218): the node's standing value when
it has no children, otherwise the maximum over the children's values. -/
def optVal (a : Args) : ℕ :=
  match h : childNodes a with
  | none => a.sv
  | some cs => cs.attach.foldl (fun m x => max m (optVal x.1.2)) 0
termination_by a.items.length
decreasing_by
  all_goals
    have := @childNodes_mem_length a _ h x.1.1 x.1.2 (by simpa using x.2)
    omega

/-- `_optimal_terminal_nodes` (lines 220-229), skipping the unreachable
internal-consistency error branch. -/
def optTermKeys (a : Args) : Finset SKey :=
  match h : childNodes a with
  | none => ∅
  | some cs => cs.attach.foldl (fun acc x =>
      if optVal x.1.2 = optVal a then
        (if isTerminal x.1.2 then insert (structKey x.1.2) acc
         else acc ∪ optTermKeys x.1.2)
      else acc) ∅
termination_by a.items.length
decreasing_by
  all_goals
    have := @childNodes_mem_length a _ h x.1.1 x.1.2 (by simpa using x.2)
    omega

/-- The guard of the internal-consistency `ValueError` of `__init__`
(line 228): some child's optimal terminal value exceeds the parent's. -/
def optErrorBranch (a : Args) : Bool :=
  match childNodes a with
  | none => false
  | some cs => cs.any (fun p => optVal p.2 > optVal a)

/-- Registry lookup `KnapsackInstance.instance_by_hash[k]`, reconstructed from
the structural key: the committed items are the root items whose ids appear in
the key's standing component, the eligible items are the others (within one
run the key's standing ids and the root list determine both). -/
def keyStanding (R : List KItem) (k : SKey) : List KItem :=
  R.filter (fun it => it.id ∈ k.core.standing)

def keyElig (R : List KItem) (k : SKey) : List KItem :=
  R.filter (fun it => it.id ∉ k.core.standing)

/-- `_included_dominated_items` of the registry node behind key `k`. -/
def keyIncDom (R : List KItem) (k : SKey) : List KItem :=
  (keyStanding R k).filter (fun s => checkDom R s (keyElig R k))

/-- `_is_dominated` of the registry node behind key `k`. -/
def keyIsDom (R : List KItem) (k : SKey) : Bool := !(keyIncDom R k).isEmpty

/-- The filter of `_non_dominated_terminal_nodes`: the terminal node is not
dominated, or all its dominated commitments were already present in the
ancestor's `_included_dominated_items` (Python `in`, i.e. `__eq__`-membership). -/
def ndPred (R : List KItem) (selfIncDom : List KItem) (k : SKey) : Bool :=
  !keyIsDom R k ||
  (keyIncDom R k).all (fun d => selfIncDom.any (fun e => itemEqb e d))

/-- `_non_dominated_terminal_nodes` (line 290). -/
def ndTermKeys (R : List KItem) (a : Args) : Finset SKey :=
  (termKeys a).filter (fun k => ndPred R (incDomItems R a) k)

/-- `_non_dominated_optimal_terminal_nodes` (line 300). -/
def ndOptTermKeys (R : List KItem) (a : Args) : Finset SKey :=
  (optTermKeys a).filter (fun k => ndPred R (incDomItems R a) k)

end KD

namespace KD

/-- A Python `dict[int, float]` keyed by node identity: insertion-ordered key
list plus the value map (zero off the key list). -/
structure PDict where
  ks : List SKey
  f : SKey → ℝ

/-- The empty dict `{}`. -/
noncomputable def dempty : PDict := ⟨[], fun _ => 0⟩

/-- `d[k] = v`: assign, appending the key if absent. -/
noncomputable def dset (d : PDict) (k : SKey) (v : ℝ) : PDict :=
  ⟨if k ∈ d.ks then d.ks else d.ks ++ [k], Function.update d.f k v⟩

/-- `if k not in d: d[k] = 0.0` followed by `d[k] += v`. -/
noncomputable def dadd (d : PDict) (k : SKey) (v : ℝ) : PDict :=
  dset d k (d.f k + v)

/-- `sum(d.values())`. -/
noncomputable def dsum (d : PDict) : ℝ := (d.ks.map d.f).sum

/-- Well-formedness of the dict model: no duplicate keys, and the value map is
zero off the key list. -/
def DWF (d : PDict) : Prop := d.ks.Nodup ∧ ∀ k, k ∉ d.ks → d.f k = 0

/-- All stored masses are non-negative. -/
def DNonneg (d : PDict) : Prop := ∀ k ∈ d.ks, 0 ≤ d.f k

theorem dwf_empty : DWF dempty := ⟨List.nodup_nil, fun _ _ => rfl⟩

theorem dnonneg_empty : DNonneg dempty := fun k hk => by simp [dempty] at hk

theorem mem_dset {d : PDict} {k k' : SKey} {v : ℝ} :
    k' ∈ (dset d k v).ks ↔ k' ∈ d.ks ∨ k' = k := by
  simp only [dset]
  by_cases h : k ∈ d.ks
  · simp only [if_pos h]
    constructor
    · exact Or.inl
    · rintro (h' | rfl) <;> [exact h'; exact h]
  · simp [if_neg h]

theorem dset_f_same (d : PDict) (k : SKey) (v : ℝ) : (dset d k v).f k = v := by
  simp [dset]

theorem dset_f_other (d : PDict) {k k' : SKey} (v : ℝ) (h : k' ≠ k) :
    (dset d k v).f k' = d.f k' := by
  simp [dset, Function.update_noteq h]

theorem dwf_dset {d : PDict} (hwf : DWF d) (k : SKey) (v : ℝ) : DWF (dset d k v) := by
  obtain ⟨hnd, hz⟩ := hwf
  constructor
  · simp only [dset]
    by_cases h : k ∈ d.ks
    · simpa [if_pos h] using hnd
    · simp only [if_neg h]
      exact List.Nodup.append hnd (List.nodup_singleton k)
        (by simpa [List.disjoint_singleton] using h)
  · intro k' hk'
    rw [mem_dset] at hk'
    push_neg at hk'
    rw [dset_f_other d v hk'.2]
    exact hz k' hk'.1

theorem dnonneg_dset {d : PDict} (hn : DNonneg d) {k : SKey} {v : ℝ} (hv : 0 ≤ v) :
    DNonneg (dset d k v) := by
  intro k' hk'
  by_cases h : k' = k
  · subst h; rw [dset_f_same]; exact hv
  · rw [dset_f_other d v h]
    rw [mem_dset] at hk'
    rcases hk' with h' | h'
    · exact hn k' h'
    · exact absurd h' h

theorem dnonneg_dadd {d : PDict} (hwf : DWF d) (hn : DNonneg d) {k : SKey} {v : ℝ}
    (hv : 0 ≤ v) : DNonneg (dadd d k v) := by
  apply dnonneg_dset hn
  by_cases h : k ∈ d.ks
  · exact add_nonneg (hn k h) hv
  · rw [hwf.2 k h]; simpa using hv

theorem dwf_dadd {d : PDict} (hwf : DWF d) (k : SKey) (v : ℝ) : DWF (dadd d k v) :=
  dwf_dset hwf k _

/-- Updating one key of a duplicate-free list changes the value sum by the
difference at that key. -/
theorem sum_map_update {l : List SKey} {f : SKey → ℝ} {k : SKey} {v : ℝ}
    (hnd : l.Nodup) (hk : k ∈ l) :
    (l.map (Function.update f k v)).sum = (l.map f).sum - f k + v := by
  induction l with
  | nil => cases hk
  | cons x xs ih =>
    rcases List.mem_cons.mp hk with hkx | hk'
    · subst hkx
      have hx : k ∉ xs := (List.nodup_cons.mp hnd).1
      have : xs.map (Function.update f k v) = xs.map f := by
        apply List.map_congr_left
        intro y hy
        exact Function.update_noteq (show y ≠ k by rintro rfl; exact hx hy) v f
      simp [this]
      ring
    · have hxk : x ≠ k := by
        intro h; subst h
        exact (List.nodup_cons.mp hnd).1 hk'
      rw [List.map_cons, List.map_cons, List.sum_cons, List.sum_cons,
        Function.update_noteq hxk, ih (List.nodup_cons.mp hnd).2 hk']
      ring

theorem dsum_dset {d : PDict} (hwf : DWF d) (k : SKey) (v : ℝ) :
    dsum (dset d k v) = dsum d - d.f k + v := by
  by_cases h : k ∈ d.ks
  · simp only [dsum, dset, if_pos h]
    exact sum_map_update hwf.1 h
  · simp only [dsum, dset, if_neg h]
    have : d.ks.map (Function.update d.f k v) = d.ks.map d.f := by
      apply List.map_congr_left
      intro y hy
      exact Function.update_noteq (show y ≠ k by rintro rfl; exact h hy) v d.f
    rw [List.map_append, List.sum_append, this, hwf.2 k h]
    simp

theorem dsum_dadd {d : PDict} (hwf : DWF d) (k : SKey) (v : ℝ) :
    dsum (dadd d k v) = dsum d + v := by
  rw [dadd, dsum_dset hwf]
  ring

theorem dadd_f_same {d : PDict} (k : SKey) (v : ℝ) : (dadd d k v).f k = d.f k + v :=
  dset_f_same d k _

theorem dadd_f_other {d : PDict} {k k' : SKey} (v : ℝ) (h : k' ≠ k) :
    (dadd d k v).f k' = d.f k' :=
  dset_f_other d _ h

theorem mem_dadd {d : PDict} {k k' : SKey} {v : ℝ} :
    k' ∈ (dadd d k v).ks ↔ k' ∈ d.ks ∨ k' = k := mem_dset

end KD

namespace KD

/-- `ProblemType` (`problem_type.py`). -/
inductive ProblemType
  | OPTIMISATION
  | DECISION
deriving DecidableEq, Repr

/-- The arguments of `get_node_distribution`: the four behavioural parameters
(floats modelled as exact rationals), the problem variant, and the optional
value threshold. -/
structure Params where
  alpha : ℚ
  beta : ℚ
  gamma : ℚ
  delta : ℚ
  ptype : ProblemType
  threshold : Option ℤ
deriving DecidableEq, Repr

/-- `_validate_parameters_and_value_threshold` (lines 338-376), with the
statically-impossible type errors omitted: `True` iff no `ValueError` or
threshold-shape `TypeError` is raised. -/
def validate (p : Params) : Bool :=
  (0 ≤ p.beta && p.beta < 1) &&
  (0 ≤ p.gamma && p.gamma < 1) &&
  (0 ≤ p.delta && p.delta ≤ 1) &&
  (match p.ptype with
   | .DECISION =>
     (0 ≤ p.alpha && p.alpha ≤ 1) &&
     (match p.threshold with
      | none => false
      | some t => 0 ≤ t)
   | .OPTIMISATION =>
     (0 < p.alpha && p.alpha ≤ 1) && p.threshold == none)

/-- Python `math.isclose` with its default tolerances
(`rel_tol = 1e-9`, `abs_tol = 0`). -/
def iscloseR (x y : ℝ) : Prop := |x - y| ≤ (1 / 1000000000) * max |x| |y|

/-- The transformed item weight `density ** (β/(1-β)) * weight ** (γ/(1-γ))`
(Python `**` on non-negative floats modelled as `Real.rpow`). -/
noncomputable def wfac (it : KItem) (beta gamma : ℚ) : ℝ :=
  (it.density : ℝ) ^ ((beta / (1 - beta) : ℚ) : ℝ) *
  (it.weight : ℝ) ^ ((gamma / (1 - gamma) : ℚ) : ℝ)

/-- Possible failures of the engine: a validation `ValueError`/`TypeError`,
the `RuntimeError` of the final mass check, and exhaustion of the
fuel that stands in for the call stack. -/
inductive KError
  | validation
  | runtime
  | fuel
deriving DecidableEq, Repr

/-- `_search_for_optimum` (lines 419-436): the full-set share split evenly
over the optimal terminal nodes, plus the non-dominated share added on top of
the non-dominated optimal terminal nodes. -/
noncomputable def searchForOptimum (R : List KItem) (a : Args) (delta alpha : ℚ) : PDict :=
  let pFull : ℝ := (1 - (delta : ℝ)) *
    Real.exp ((1 - ((termKeys a).card : ℝ)) * ((1 - (alpha : ℝ)) / (alpha : ℝ)))
  let pNd : ℝ := (delta : ℝ) *
    Real.exp ((1 - ((ndTermKeys R a).card : ℝ)) * ((1 - (alpha : ℝ)) / (alpha : ℝ)))
  let d1 := (optTermKeys a).toList.foldl
    (fun d t => dset d t (pFull / ((optTermKeys a).card : ℝ))) dempty
  (ndOptTermKeys R a).toList.foldl
    (fun d t => dadd d t (pNd / ((ndOptTermKeys R a).card : ℝ))) d1

/-- The body of `_search_for_witness` (lines 439-472) after the two recursive
baseline distributions have been computed: mass is laid on the
threshold-meeting keys in proportion to their baseline masses.  The standing
value of a key is read off the key itself, as the registry lookup does. -/
noncomputable def witnessPart (d0 d1 : PDict) (thr : ℤ) (delta alpha : ℚ) : PDict :=
  let p0 : ℝ := ((d0.ks.filter (fun k => thr ≤ (k.core.sv : ℤ))).map d0.f).sum
  let p1 : ℝ := ((d1.ks.filter (fun k => thr ≤ (k.core.sv : ℤ))).map d1.f).sum
  let pFull : ℝ := (1 - (delta : ℝ)) * p0 ^ ((1 - (alpha : ℝ)) / (alpha : ℝ))
  let pNd : ℝ := (delta : ℝ) * p1 ^ ((1 - (alpha : ℝ)) / (alpha : ℝ))
  let e1 := d0.ks.foldl (fun d k =>
    if thr ≤ (k.core.sv : ℤ) then dset d k (pFull * (d0.f k / p0)) else d) dempty
  d1.ks.foldl (fun d k =>
    if thr ≤ (k.core.sv : ℤ) then dadd d k (pNd * (d1.f k / p1)) else d) e1

/-- The inner loop of `_add_item_and_continue_search` (lines 488-497) for one
child: add the residual-weighted share of the child's distribution, and the
extra non-dominated share when the added item is non-dominated. -/
noncomputable def addChildMass (R : List KItem) (a : Args) (p : Params)
    (residual : ℝ) (it : KItem) (cd : PDict) (d : PDict) : PDict :=
  let wAll : ℝ := (((childNodes a).getD []).map (fun q => wfac q.1 p.beta p.gamma)).sum
  let wNd : ℝ := (((childNodes a).getD []).map (fun q =>
    if q.1.id ∈ nonDomItems R a then wfac q.1 p.beta p.gamma else 0)).sum
  cd.ks.foldl (fun d' k =>
    let d2 := dadd d' k (residual * (1 - (p.delta : ℝ)) *
      (wfac it p.beta p.gamma / wAll) * cd.f k)
    if it.id ∈ nonDomItems R a then
      dadd d2 k (residual * (p.delta : ℝ) *
        (wfac it p.beta p.gamma / wNd) * cd.f k)
    else d2) d

open Classical in
mutual

/-- `get_node_distribution` (lines 378-545) without the memo registry:
validation, the terminal base case, the brute-force search stage
(per variant, with the α = 0 witness-search skip), the incremental
continuation when residual mass remains, and the final mass check raising
`RuntimeError`.  Fuel stands in for the call stack; recursion into the same
node is only ever done with α = 0. -/
noncomputable def distFuel (R : List KItem) : ℕ → Args → Params → Except KError PDict
  | 0, _, _ => .error .fuel
  | fuel + 1, a, p =>
    if validate p = false then .error .validation
    else if isTerminal a then .ok (dset dempty (structKey a) 1)
    else
      let brute : Except KError PDict :=
        match p.ptype with
        | .OPTIMISATION => .ok (searchForOptimum R a p.delta p.alpha)
        | .DECISION =>
          if p.alpha = 0 then .ok dempty
          else
            match distFuel R fuel a ⟨0, 0, 0, 0, .DECISION, p.threshold⟩ with
            | .error e => .error e
            | .ok d0 =>
              match distFuel R fuel a ⟨0, 0, 0, 1, .DECISION, p.threshold⟩ with
              | .error e => .error e
              | .ok d1 =>
                .ok (witnessPart d0 d1 (p.threshold.getD 0) p.delta p.alpha)
      match brute with
      | .error e => .error e
      | .ok bd =>
        let residual : ℝ := 1 - dsum bd
        let afterCont : Except KError PDict :=
          if residual = 0 then .ok bd
          else contList R fuel a p residual ((childNodes a).getD []) bd
        match afterCont with
        | .error e => .error e
        | .ok fd => if iscloseR (dsum fd) 1 then .ok fd else .error .runtime
termination_by n _ _ => (n, 0)

/-- The child loop of `_add_item_and_continue_search`: recursively compute
each child's distribution and accumulate its weighted mass. -/
noncomputable def contList (R : List KItem) (fuel : ℕ) (a : Args) (p : Params)
    (residual : ℝ) : List (KItem × Args) → PDict → Except KError PDict
  | [], d => .ok d
  | (it, c) :: rest, d =>
    match distFuel R fuel c p with
    | .error e => .error e
    | .ok cd => contList R fuel a p residual rest (addChildMass R a p residual it cd d)
termination_by l _ => (fuel, l.length + 1)

end

end KD

namespace KD

/-- `get_node_distribution` from a fresh call stack: `items.length + 2` fuel
is enough for every valid parameter tuple (proved below). -/
noncomputable def getDist (R : List KItem) (a : Args) (p : Params) : Except KError PDict :=
  distFuel R (a.items.length + 2) a p

/-- The memo key of `get_node_distribution` (line 502): the four behavioural
parameters in the order `beta, alpha, gamma, delta` of the hash string, the
problem type and the node identity.  The value threshold is **not** part of
the key. -/
structure MKey where
  beta : ℚ
  alpha : ℚ
  gamma : ℚ
  delta : ℚ
  ptype : ProblemType
  node : SKey
deriving DecidableEq, Repr

def mkey (a : Args) (p : Params) : MKey :=
  ⟨p.beta, p.alpha, p.gamma, p.delta, p.ptype, structKey a⟩

/-- The distribution memo `KnapsackInstance.distribution_by_hash`. -/
def Memo := List (MKey × PDict)

def mfind (m : Memo) (k : MKey) : Option PDict :=
  (List.find? (fun q => q.1 = k) m).map (fun q => q.2)

def mstore (m : Memo) (k : MKey) (d : PDict) : Memo := (k, d) :: m

open Classical in
mutual

/-- `get_node_distribution` with the memo registry threaded through, exactly
as the source: a memo hit returns the stored distribution before any
validation; a freshly computed non-terminal distribution is stored before
being returned; the terminal base case returns without storing. -/
noncomputable def distM (R : List KItem) : ℕ → Args → Params → Memo →
    Except KError PDict × Memo
  | 0, _, _, m => (.error .fuel, m)
  | fuel + 1, a, p, m =>
    match mfind m (mkey a p) with
    | some d => (.ok d, m)
    | none =>
      if validate p = false then (.error .validation, m)
      else if isTerminal a then (.ok (dset dempty (structKey a) 1), m)
      else
        let bruteM : Except KError PDict × Memo :=
          match p.ptype with
          | .OPTIMISATION => (.ok (searchForOptimum R a p.delta p.alpha), m)
          | .DECISION =>
            if p.alpha = 0 then (.ok dempty, m)
            else
              match distM R fuel a ⟨0, 0, 0, 0, .DECISION, p.threshold⟩ m with
              | (.error e, m') => (.error e, m')
              | (.ok d0, m') =>
                match distM R fuel a ⟨0, 0, 0, 1, .DECISION, p.threshold⟩ m' with
                | (.error e, m'') => (.error e, m'')
                | (.ok d1, m'') =>
                  (.ok (witnessPart d0 d1 (p.threshold.getD 0) p.delta p.alpha), m'')
        match bruteM with
        | (.error e, m') => (.error e, m')
        | (.ok bd, m') =>
          let residual : ℝ := 1 - dsum bd
          let afterCont : Except KError PDict × Memo :=
            if residual = 0 then (.ok bd, m')
            else contListM R fuel a p residual ((childNodes a).getD []) bd m'
          match afterCont with
          | (.error e, m'') => (.error e, m'')
          | (.ok fd, m'') =>
            if iscloseR (dsum fd) 1 then (.ok fd, mstore m'' (mkey a p) fd)
            else (.error .runtime, m'')
termination_by n _ _ _ => (n, 0)

/-- The memoized child loop of `_add_item_and_continue_search`. -/
noncomputable def contListM (R : List KItem) (fuel : ℕ) (a : Args) (p : Params)
    (residual : ℝ) : List (KItem × Args) → PDict → Memo → Except KError PDict × Memo
  | [], d, m => (.ok d, m)
  | (it, c) :: rest, d, m =>
    match distM R fuel c p m with
    | (.error e, m') => (.error e, m')
    | (.ok cd, m') =>
      contListM R fuel a p residual rest (addChildMass R a p residual it cd d) m'
termination_by l _ _ => (fuel, l.length + 1)

end

/-- A registered node: its construction arguments, structural key, and the
keys of its children.  Instance identity is record identity. -/
structure NodeR where
  args : Args
  key : SKey
  children : List (KItem × SKey)
deriving DecidableEq, Repr

/-- The node registry `KnapsackInstance.instance_by_hash`. -/
def Reg := List (SKey × NodeR)

def rfind (r : Reg) (k : SKey) : Option NodeR :=
  (List.find? (fun q => q.1 = k) r).map (fun q => q.2)

mutual

/-- `KnapsackInstance.create` / `__init__` as a registry transformer: compute
the structural key, return the registered node on a hit, otherwise build the
children recursively through `create` (registering each) and register the new
node under its key (line 231).  Fuel bounds the recursion depth; the wrapper
below supplies one more than the item count, which is always enough. -/
def createRegF : ℕ → Args → Reg → NodeR × Reg
  | 0, a, r => (⟨a, structKey a, []⟩, r)
  | f + 1, a, r =>
    match rfind r (structKey a) with
    | some n => (n, r)
    | none =>
      let built :=
        if a.items.length = 1 then ([], r)
        else createChildrenF f (childList a) r
      let node : NodeR := ⟨a, structKey a, built.1⟩
      (node, (structKey a, node) :: built.2)
termination_by n _ _ => (n, 0)

/-- The child-construction loop of `_create_child_nodes`, threading the
registry left to right. -/
def createChildrenF : ℕ → List (KItem × Args) → Reg → List (KItem × SKey) × Reg
  | _, [], r => ([], r)
  | f, (it, c) :: rest, r =>
    let nr := createRegF f c r
    let lr := createChildrenF f rest nr.2
    ((it, nr.1.key) :: lr.1, lr.2)
termination_by f l _ => (f, l.length + 1)

end

/-- `KnapsackInstance.create` with enough fuel for the full construction. -/
def createReg (a : Args) (r : Reg) : NodeR × Reg :=
  createRegF (a.items.length + 1) a r

end KD

namespace KD

/-- Master fold lemma: a step that adds `g b` to the value sum and preserves
well-formedness does so over a whole list. -/
theorem foldl_step_sum {β : Type} (step : PDict → β → PDict) (g : β → ℝ)
    (hs : ∀ d b, DWF d → dsum (step d b) = dsum d + g b ∧ DWF (step d b)) :
    ∀ (l : List β) (d : PDict), DWF d →
      dsum (l.foldl step d) = dsum d + (l.map g).sum ∧ DWF (l.foldl step d) := by
  intro l
  induction l with
  | nil => intro d hd; simpa using hd
  | cons b bs ih =>
    intro d hd
    obtain ⟨h1, h2⟩ := hs d b hd
    obtain ⟨h3, h4⟩ := ih (step d b) h2
    constructor
    · rw [List.foldl_cons, h3, h1, List.map_cons, List.sum_cons]; ring
    · rw [List.foldl_cons]; exact h4

/-- Master fold lemma for non-negativity. -/
theorem foldl_step_nonneg {β : Type} (step : PDict → β → PDict)
    (hs : ∀ d b, DWF d → DNonneg d → DNonneg (step d b) ∧ DWF (step d b)) :
    ∀ (l : List β) (d : PDict), DWF d → DNonneg d →
      DNonneg (l.foldl step d) ∧ DWF (l.foldl step d) := by
  intro l
  induction l with
  | nil => intro d hd hn; exact ⟨hn, hd⟩
  | cons b bs ih =>
    intro d hd hn
    obtain ⟨h1, h2⟩ := hs d b hd hn
    exact ih (step d b) h2 h1

/-- Master fold lemma for key membership: if each step's keys are the old keys
plus possibly `key b`, the fold's keys are the initial ones plus some of the
listed ones. -/
theorem foldl_step_mem {β : Type} (step : PDict → β → PDict) (key : β → SKey)
    (hs : ∀ d b k', k' ∈ (step d b).ks → k' ∈ d.ks ∨ k' = key b) :
    ∀ (l : List β) (d : PDict) (k' : SKey), k' ∈ (l.foldl step d).ks →
      k' ∈ d.ks ∨ ∃ b ∈ l, k' = key b := by
  intro l
  induction l with
  | nil => intro d k' h; exact Or.inl h
  | cons b bs ih =>
    intro d k' h
    rcases ih (step d b) k' h with h' | ⟨b', hb', rfl⟩
    · rcases hs d b k' h' with h'' | h''
      · exact Or.inl h''
      · exact Or.inr ⟨b, List.mem_cons_self b bs, h''⟩
    · exact Or.inr ⟨b', List.mem_cons_of_mem b hb', rfl⟩

/-- A conditional-assignment fold over fresh, duplicate-free keys: the
resulting keys, values and value sum. -/
theorem foldl_dset_fresh (l : List SKey) (c : SKey → Bool) (g : SKey → ℝ) :
    ∀ (d : PDict), DWF d → l.Nodup → (∀ k ∈ l, k ∉ d.ks) →
      (let r := l.foldl (fun d' k => if c k then dset d' k (g k) else d') d
       DWF r ∧ dsum r = dsum d + ((l.filter (fun k => c k)).map g).sum ∧
       r.ks = d.ks ++ l.filter (fun k => c k) ∧
       (∀ k ∈ l, c k = true → r.f k = g k) ∧
       (∀ k, k ∉ l → r.f k = d.f k)) := by
  induction l with
  | nil => intro d hd _ _; simpa using hd
  | cons b bs ih =>
    intro d hd hnd hfresh
    have hbd : b ∉ d.ks := hfresh b (List.mem_cons_self b bs)
    have hbs : b ∉ bs := (List.nodup_cons.mp hnd).1
    by_cases hc : c b = true
    · have hd' : DWF (dset d b (g b)) := dwf_dset hd b (g b)
      have hfresh' : ∀ k ∈ bs, k ∉ (dset d b (g b)).ks := by
        intro k hk hmem
        rcases mem_dset.mp hmem with h | rfl
        · exact hfresh k (List.mem_cons_of_mem b hk) h
        · exact hbs hk
      obtain ⟨w1, w2, w3, w4, w5⟩ := ih (dset d b (g b)) hd' (List.nodup_cons.mp hnd).2 hfresh'
      refine ⟨?_, ?_, ?_, ?_, ?_⟩
      · simpa [hc] using w1
      · simp only [List.foldl_cons, hc, if_pos]
        rw [w2, dsum_dset hd, hd.2 b hbd]
        simp [hc]
        ring
      · simp only [List.foldl_cons, hc, if_pos]
        rw [w3]
        simp only [dset, if_neg hbd, List.filter_cons, hc]
        simp
      · intro k hk hck
        rcases List.mem_cons.mp hk with rfl | hk'
        · rw [List.foldl_cons, if_pos hc, w5 k hbs, dset_f_same]
        · rw [List.foldl_cons, if_pos hc]
          exact w4 k hk' hck
      · intro k hk
        have hkb : k ≠ b := fun h => hk (h ▸ List.mem_cons_self b bs)
        have hkbs : k ∉ bs := fun h => hk (List.mem_cons_of_mem b h)
        rw [List.foldl_cons, if_pos hc, w5 k hkbs, dset_f_other d (g b) hkb]
    · have hcb : ¬ (c b = true) := hc
      obtain ⟨w1, w2, w3, w4, w5⟩ := ih d hd (List.nodup_cons.mp hnd).2
        (fun k hk => hfresh k (List.mem_cons_of_mem b hk))
      refine ⟨?_, ?_, ?_, ?_, ?_⟩
      · simpa [hc] using w1
      · simp only [List.foldl_cons, hc, if_neg, Bool.false_eq_true, not_false_iff]
        rw [w2]
        simp [List.filter_cons, hc]
      · simp only [List.foldl_cons, hc, if_neg, Bool.false_eq_true, not_false_iff]
        rw [w3]
        simp [List.filter_cons, hc]
      · intro k hk hck
        rcases List.mem_cons.mp hk with rfl | hk'
        · exact absurd hck hcb
        · rw [List.foldl_cons, if_neg (by simp [hc])]
          exact w4 k hk' hck
      · intro k hk
        have hkbs : k ∉ bs := fun h => hk (List.mem_cons_of_mem b h)
        rw [List.foldl_cons, if_neg (by simp [hc])]
        exact w5 k hkbs

/-- Values after a conditional accumulate fold over duplicate-free keys. -/
theorem foldl_dadd_cond_f (c : SKey → Bool) (g : SKey → ℝ) :
    ∀ (l : List SKey), l.Nodup → ∀ (d : PDict) (k : SKey),
      (l.foldl (fun d' k' => if c k' then dadd d' k' (g k') else d') d).f k =
        d.f k + (if k ∈ l ∧ c k = true then g k else 0) := by
  intro l
  induction l with
  | nil => intro _ d k; simp
  | cons b bs ih =>
    intro hnd d k
    have hbs : b ∉ bs := (List.nodup_cons.mp hnd).1
    rw [List.foldl_cons]
    by_cases hc : c b = true
    · rw [if_pos hc, ih (List.nodup_cons.mp hnd).2]
      by_cases hkb : k = b
      · subst hkb
        rw [dadd_f_same]
        simp [hbs, hc]
      · rw [dadd_f_other (g b) hkb]
        by_cases hk : k ∈ bs <;> simp [hk, hkb]
    · rw [if_neg (by simp [hc]), ih (List.nodup_cons.mp hnd).2]
      by_cases hkb : k = b
      · subst hkb
        simp [hbs, hc]
      · by_cases hk : k ∈ bs <;> simp [hk, hkb]

end KD

namespace KD

theorem childNodes_ne_nil {a : Args} {cs : List (KItem × Args)}
    (h : childNodes a = some cs) : cs ≠ [] := by
  unfold childNodes at h
  split at h
  · cases h
  · split at h
    · cases h
    · cases h; assumption

/-- A fold whose step is union with a per-element set. -/
theorem mem_foldl_union {β : Type} (F : β → Finset SKey)
    (step : Finset SKey → β → Finset SKey)
    (hstep : ∀ acc b, step acc b = acc ∪ F b) :
    ∀ (l : List β) (init : Finset SKey) (x : SKey),
      x ∈ l.foldl step init ↔ x ∈ init ∨ ∃ b ∈ l, x ∈ F b := by
  intro l
  induction l with
  | nil => intro init x; simp
  | cons b bs ih =>
    intro init x
    rw [List.foldl_cons, hstep, ih]
    simp only [Finset.mem_union, List.mem_cons]
    constructor
    · rintro ((h | h) | ⟨b', hb', h⟩)
      · exact Or.inl h
      · exact Or.inr ⟨b, Or.inl rfl, h⟩
      · exact Or.inr ⟨b', Or.inr hb', h⟩
    · rintro (h | ⟨b', (rfl | hb'), h⟩)
      · exact Or.inl (Or.inl h)
      · exact Or.inl (Or.inr h)
      · exact Or.inr ⟨b', hb', h⟩

theorem termKeys_none {a : Args} (h : childNodes a = none) : termKeys a = ∅ := by
  rw [termKeys]
  split
  · rfl
  · rename_i cs heq
    rw [heq] at h; cases h

theorem mem_termKeys {a : Args} {cs : List (KItem × Args)}
    (hcs : childNodes a = some cs) (x : SKey) :
    x ∈ termKeys a ↔ ∃ q ∈ cs,
      x ∈ (if isTerminal q.2 then ({structKey q.2} : Finset SKey) else termKeys q.2) := by
  rw [termKeys]
  split
  · rename_i heq; rw [heq] at hcs; cases hcs
  · rename_i cs' heq
    rw [heq] at hcs
    injection hcs with hcs
    subst hcs
    rw [mem_foldl_union (fun q => if isTerminal q.1.2 then {structKey q.1.2} else termKeys q.1.2)
      _ (fun acc q => by
        by_cases h : isTerminal q.1.2 <;>
          simp [h, Finset.insert_eq, Finset.union_comm])]
    simp only [Finset.not_mem_empty, false_or]
    constructor
    · rintro ⟨b, _, h⟩
      exact ⟨b.1, b.2, h⟩
    · rintro ⟨q, hq, h⟩
      exact ⟨⟨q, hq⟩, List.mem_attach _ _, h⟩

theorem optVal_none {a : Args} (h : childNodes a = none) : optVal a = a.sv := by
  rw [optVal]
  split
  · rfl
  · rename_i cs heq
    rw [heq] at h; cases h

theorem le_foldl_max {β : Type} (g : β → ℕ) :
    ∀ (l : List β) (acc : ℕ), acc ≤ l.foldl (fun m y => max m (g y)) acc := by
  intro l
  induction l with
  | nil => intro acc; simp
  | cons b bs ih =>
    intro acc
    exact le_trans (Nat.le_max_left acc (g b)) (ih (max acc (g b)))

theorem foldl_max_le_mem {β : Type} (g : β → ℕ) :
    ∀ (l : List β) (acc : ℕ) (x : β), x ∈ l →
      g x ≤ l.foldl (fun m y => max m (g y)) acc := by
  intro l
  induction l with
  | nil => intro acc x h; cases h
  | cons b bs ih =>
    intro acc x h
    rcases List.mem_cons.mp h with rfl | h'
    · exact le_trans (Nat.le_max_right acc (g x)) (le_foldl_max g bs _)
    · exact ih _ x h'

theorem foldl_max_cases {β : Type} (g : β → ℕ) :
    ∀ (l : List β) (acc : ℕ),
      l.foldl (fun m y => max m (g y)) acc = acc ∨
      ∃ x ∈ l, l.foldl (fun m y => max m (g y)) acc = g x := by
  intro l
  induction l with
  | nil => intro acc; exact Or.inl rfl
  | cons b bs ih =>
    intro acc
    rcases ih (max acc (g b)) with h | ⟨x, hx, h⟩
    · rw [List.foldl_cons]
      rcases max_choice acc (g b) with h' | h'
      · rw [h, h']; exact Or.inl rfl
      · rw [h, h']; exact Or.inr ⟨b, List.mem_cons_self b bs, rfl⟩
    · exact Or.inr ⟨x, List.mem_cons_of_mem b hx, by rw [List.foldl_cons, h]⟩

theorem optVal_some {a : Args} {cs : List (KItem × Args)}
    (hcs : childNodes a = some cs) :
    optVal a = cs.attach.foldl (fun m x => max m (optVal x.1.2)) 0 := by
  rw [optVal]
  split
  · rename_i heq; rw [heq] at hcs; cases hcs
  · rename_i cs' heq
    rw [heq] at hcs
    injection hcs with hcs
    subst hcs
    rfl

theorem optVal_le {a : Args} {cs : List (KItem × Args)}
    (hcs : childNodes a = some cs) {q : KItem × Args} (hq : q ∈ cs) :
    optVal q.2 ≤ optVal a := by
  rw [optVal_some hcs]
  exact foldl_max_le_mem (fun x => optVal x.1.2) cs.attach 0 ⟨q, hq⟩
    (List.mem_attach _ _)

theorem optVal_exists {a : Args} {cs : List (KItem × Args)}
    (hcs : childNodes a = some cs) : ∃ q ∈ cs, optVal q.2 = optVal a := by
  have hne := childNodes_ne_nil hcs
  rcases foldl_max_cases (fun x => optVal x.1.2) cs.attach 0 with h | ⟨x, _, h⟩
  · rcases hq : cs with _ | ⟨q0, rest⟩
    · exact absurd hq hne
    · subst hq
      refine ⟨q0, List.mem_cons_self q0 rest, ?_⟩
      rw [optVal_some hcs, h]
      have hle := foldl_max_le_mem (fun x => optVal x.1.2) (q0 :: rest).attach 0
        ⟨q0, List.mem_cons_self q0 rest⟩ (List.mem_attach _ _)
      rw [h] at hle
      simpa using hle
  · exact ⟨x.1, x.2, by rw [optVal_some hcs, h]⟩

theorem mem_optTermKeys {a : Args} {cs : List (KItem × Args)}
    (hcs : childNodes a = some cs) (x : SKey) :
    x ∈ optTermKeys a ↔ ∃ q ∈ cs, optVal q.2 = optVal a ∧
      x ∈ (if isTerminal q.2 then ({structKey q.2} : Finset SKey) else optTermKeys q.2) := by
  rw [optTermKeys]
  split
  · rename_i heq; rw [heq] at hcs; cases hcs
  · rename_i cs' heq
    rw [heq] at hcs
    injection hcs with hcs
    subst hcs
    rw [mem_foldl_union (fun q => if optVal q.1.2 = optVal a then
        (if isTerminal q.1.2 then {structKey q.1.2} else optTermKeys q.1.2) else ∅)
      _ (fun acc q => by
        by_cases h : optVal q.1.2 = optVal a
        · by_cases h' : isTerminal q.1.2 <;>
            simp [h, h', Finset.insert_eq, Finset.union_comm]
        · simp [h])]
    simp only [Finset.not_mem_empty, false_or]
    constructor
    · rintro ⟨b, _, h⟩
      by_cases hv : optVal b.1.2 = optVal a
      · rw [if_pos hv] at h
        exact ⟨b.1, b.2, hv, h⟩
      · rw [if_neg hv] at h
        cases h
    · rintro ⟨q, hq, hv, h⟩
      exact ⟨⟨q, hq⟩, List.mem_attach _ _, by rw [hv]; simpa using h⟩

theorem optTermKeys_none {a : Args} (h : childNodes a = none) : optTermKeys a = ∅ := by
  rw [optTermKeys]
  split
  · rfl
  · rename_i cs heq
    rw [heq] at h; cases h

end KD

namespace KD

theorem isTerminal_false_iff {a : Args} :
    isTerminal a = false ↔ ∃ cs, childNodes a = some cs := by
  unfold isTerminal
  rcases h : childNodes a with _ | cs
  · simp [Option.isNone]
  · simp [Option.isNone]

theorem optTermKeys_subset_aux :
    ∀ (n : ℕ) (a : Args), a.items.length ≤ n → optTermKeys a ⊆ termKeys a := by
  intro n
  induction n with
  | zero =>
    intro a _
    rcases hcs : childNodes a with _ | cs
    · rw [optTermKeys_none hcs, termKeys_none hcs]
    · intro x hx
      rw [mem_optTermKeys hcs] at hx
      rw [mem_termKeys hcs]
      obtain ⟨q, hq, _, hx⟩ := hx
      refine ⟨q, hq, ?_⟩
      by_cases ht : isTerminal q.2
      · simpa [ht] using hx
      · -- impossible: children exist under zero items is fine; use the subset
        -- recursively via length: a.items.length = 0 contradicts a child
        have := childNodes_mem_length hcs hq
        omega
  | succ n ih =>
    intro a hlen
    rcases hcs : childNodes a with _ | cs
    · rw [optTermKeys_none hcs, termKeys_none hcs]
    · intro x hx
      rw [mem_optTermKeys hcs] at hx
      rw [mem_termKeys hcs]
      obtain ⟨q, hq, _, hx⟩ := hx
      refine ⟨q, hq, ?_⟩
      by_cases ht : isTerminal q.2
      · simpa [ht] using hx
      · rw [if_neg ht] at hx ⊢
        have hl := childNodes_mem_length hcs hq
        exact ih q.2 (by omega) hx

theorem optTermKeys_subset (a : Args) : optTermKeys a ⊆ termKeys a :=
  optTermKeys_subset_aux a.items.length a le_rfl

theorem termKeys_nonempty_aux :
    ∀ (n : ℕ) (a : Args), a.items.length ≤ n → isTerminal a = false →
      (termKeys a).Nonempty := by
  intro n
  induction n with
  | zero =>
    intro a hlen ht
    obtain ⟨cs, hcs⟩ := isTerminal_false_iff.mp ht
    obtain ⟨q, hq⟩ := List.exists_mem_of_ne_nil cs (childNodes_ne_nil hcs)
    have := childNodes_mem_length hcs hq
    omega
  | succ n ih =>
    intro a hlen ht
    obtain ⟨cs, hcs⟩ := isTerminal_false_iff.mp ht
    obtain ⟨q, hq⟩ := List.exists_mem_of_ne_nil cs (childNodes_ne_nil hcs)
    by_cases hqt : isTerminal q.2
    · exact ⟨structKey q.2, (mem_termKeys hcs _).mpr ⟨q, hq, by simp [hqt]⟩⟩
    · have hl := childNodes_mem_length hcs hq
      obtain ⟨x, hx⟩ := ih q.2 (by omega) (by simpa using hqt)
      exact ⟨x, (mem_termKeys hcs _).mpr ⟨q, hq, by simpa [hqt] using hx⟩⟩

theorem termKeys_nonempty {a : Args} (ht : isTerminal a = false) :
    (termKeys a).Nonempty :=
  termKeys_nonempty_aux a.items.length a le_rfl ht

theorem optTermKeys_nonempty_aux :
    ∀ (n : ℕ) (a : Args), a.items.length ≤ n → isTerminal a = false →
      (optTermKeys a).Nonempty := by
  intro n
  induction n with
  | zero =>
    intro a hlen ht
    obtain ⟨cs, hcs⟩ := isTerminal_false_iff.mp ht
    obtain ⟨q, hq⟩ := List.exists_mem_of_ne_nil cs (childNodes_ne_nil hcs)
    have := childNodes_mem_length hcs hq
    omega
  | succ n ih =>
    intro a hlen ht
    obtain ⟨cs, hcs⟩ := isTerminal_false_iff.mp ht
    obtain ⟨q, hq, hv⟩ := optVal_exists hcs
    by_cases hqt : isTerminal q.2
    · exact ⟨structKey q.2, (mem_optTermKeys hcs _).mpr ⟨q, hq, hv, by simp [hqt]⟩⟩
    · have hl := childNodes_mem_length hcs hq
      obtain ⟨x, hx⟩ := ih q.2 (by omega) (by simpa using hqt)
      exact ⟨x, (mem_optTermKeys hcs _).mpr ⟨q, hq, hv, by simpa [hqt] using hx⟩⟩

theorem optTermKeys_nonempty {a : Args} (ht : isTerminal a = false) :
    (optTermKeys a).Nonempty :=
  optTermKeys_nonempty_aux a.items.length a le_rfl ht

theorem ndOptTermKeys_subset (R : List KItem) (a : Args) :
    ndOptTermKeys R a ⊆ ndTermKeys R a := by
  intro x hx
  rw [ndOptTermKeys, Finset.mem_filter] at hx
  rw [ndTermKeys, Finset.mem_filter]
  exact ⟨optTermKeys_subset a hx.1, hx.2⟩

theorem structKey_child_mem_termKeys {a : Args} {cs : List (KItem × Args)}
    (hcs : childNodes a = some cs) {q : KItem × Args} (hq : q ∈ cs)
    (hqt : isTerminal q.2 = true) : structKey q.2 ∈ termKeys a :=
  (mem_termKeys hcs _).mpr ⟨q, hq, by simp [hqt]⟩

theorem termKeys_child_subset {a : Args} {cs : List (KItem × Args)}
    (hcs : childNodes a = some cs) {q : KItem × Args} (hq : q ∈ cs)
    (hqt : isTerminal q.2 = false) : termKeys q.2 ⊆ termKeys a := by
  intro x hx
  exact (mem_termKeys hcs _).mpr ⟨q, hq, by simpa [hqt] using hx⟩

end KD

namespace KD

theorem childListAux_eq_nil {a : Args} :
    ∀ {pre post : List KItem}, childListAux a pre post = [] ↔
      ∀ it ∈ post, a.cap < it.weight := by
  intro pre post
  induction post generalizing pre with
  | nil => simp [childListAux]
  | cons x xs ih =>
    rw [childListAux]
    by_cases hw : x.weight ≤ a.cap
    · simp [hw, Nat.not_lt.mpr hw]
    · rw [if_neg hw]
      simp only [List.nil_append, List.mem_cons]
      constructor
      · intro h it hit
        rcases hit with rfl | hit
        · omega
        · exact (ih.mp h) it hit
      · intro h
        exact ih.mpr (fun it hit => h it (Or.inr hit))

theorem childListAux_map_fst {a : Args} :
    ∀ {pre post : List KItem}, (childListAux a pre post).map Prod.fst =
      post.filter (fun it => it.weight ≤ a.cap) := by
  intro pre post
  induction post generalizing pre with
  | nil => simp [childListAux]
  | cons x xs ih =>
    rw [childListAux, List.filter_cons]
    by_cases hw : x.weight ≤ a.cap
    · rw [List.map_append]
      simp [hw, ih]
    · simp [hw, ih]

theorem childListAux_mem_struct {a : Args} {it : KItem} {c : Args} :
    ∀ {pre post : List KItem}, (it, c) ∈ childListAux a pre post →
      ∃ mid rest, post = mid ++ it :: rest ∧ c = childArgs a (pre ++ mid) rest it := by
  intro pre post
  induction post generalizing pre with
  | nil => intro h; cases h
  | cons x xs ih =>
    intro h
    rw [childListAux, List.mem_append] at h
    rcases h with h | h
    · by_cases hw : x.weight ≤ a.cap
      · rw [if_pos hw, List.mem_singleton] at h
        injection h with h1 h2
        subst h1
        exact ⟨[], xs, rfl, by simpa using h2⟩
      · rw [if_neg hw] at h; cases h
    · obtain ⟨mid, rest, hpost, hc⟩ := ih h
      exact ⟨x :: mid, rest, by rw [hpost]; rfl,
        by rw [hc]; simp [childArgs]⟩

/-- **C7.** A constructed node is terminal iff no eligible item fits the
remaining capacity or exactly one item remains; otherwise it has exactly one
child per eligible fitting item, in order, each built with that item removed
from the eligible list, the capacity reduced by its weight, the value
increased by its value, and the item appended to the committed path. -/
theorem claim_C7 (a : Args) :
    (isTerminal a = true ↔ ((∀ it ∈ a.items, a.cap < it.weight) ∨ a.items.length = 1)) ∧
    (∀ cs, childNodes a = some cs →
      cs.map Prod.fst = a.items.filter (fun it => it.weight ≤ a.cap) ∧
      ∀ q ∈ cs, ∃ pre post, a.items = pre ++ q.1 :: post ∧
        q.2 = Args.mk (pre ++ post) (a.cap - q.1.weight) (a.sv + q.1.value)
              (a.standing ++ [q.1]) (childMaster a)) := by
  constructor
  · unfold isTerminal childNodes
    by_cases h1 : a.items.length = 1
    · simp [h1]
    · rw [if_neg h1]
      by_cases h2 : childList a = []
      · simp only [h2, if_pos, Option.isNone_none, true_iff]
        exact Or.inl (childListAux_eq_nil.mp h2)
      · rw [if_neg h2]
        simp only [Option.isNone_some, Bool.false_eq_true, false_iff]
        rw [not_or]
        exact ⟨fun hall => h2 (childListAux_eq_nil.mpr hall), h1⟩
  · intro cs hcs
    have hlist : cs = childList a := by
      unfold childNodes at hcs
      split at hcs
      · cases hcs
      · split at hcs
        · cases hcs
        · injection hcs with h; exact h.symm
    subst hlist
    constructor
    · exact childListAux_map_fst
    · rintro ⟨it, c⟩ hq
      obtain ⟨mid, rest, hpost, hc⟩ := childListAux_mem_struct hq
      exact ⟨mid, rest, hpost, by simpa [childArgs] using hc⟩

/-- **C8.** The optimal terminal value is the node's own standing value when
it has no children and otherwise the maximum of its children's optimal
values; hence every child's optimal value is at most its parent's and the
internal-consistency error branch of `__init__` is unreachable. -/
theorem claim_C8 (a : Args) :
    (childNodes a = none → optVal a = a.sv) ∧
    (∀ cs, childNodes a = some cs →
      (∀ q ∈ cs, optVal q.2 ≤ optVal a) ∧ ∃ q ∈ cs, optVal q.2 = optVal a) ∧
    optErrorBranch a = false := by
  refine ⟨optVal_none, fun cs hcs => ⟨fun q hq => optVal_le hcs hq, optVal_exists hcs⟩, ?_⟩
  unfold optErrorBranch
  split
  · rfl
  · rename_i cs hcs
    rw [List.any_eq_false]
    intro q hq
    simp only [decide_eq_true_eq, Nat.not_lt]
    exact optVal_le hcs hq

end KD

namespace KD

/-- **C4 counterexample.**  Items `(value 0, weight 5, id 0)` and
`(value 0, weight 3, id 1)` are not exact value/weight duplicates and satisfy
neither regular dominance clause with the first in the role of `A`, yet
`set_dominance` caches the first item's id as dominating the second: the
tie-break tests Python `__eq__`, which is density-and-value equality, and
both zero-value items have density `0`. -/
theorem claim_C4_counterexample :
    (setDominance ⟨0, 3, 1⟩ [⟨0, 5, 0⟩]).toOption = some ({0} : Finset ℕ) ∧
    ¬((0 > 0 ∧ 5 ≤ 3) ∨ (0 ≥ 0 ∧ 5 < 3) ∨ (0 = 0 ∧ (5 : ℕ) = 3 ∧ 0 < 1)) := by
  constructor
  · unfold setDominance
    rw [if_neg (by decide)]
    have hd : dominatesb ⟨0, 5, 0⟩ ⟨0, 3, 1⟩ = true := by
      simp [dominatesb, itemEqb, KItem.density]
    simp [hd, Except.toOption, List.filter]
  · decide

/-- **C4 (amended).**  For candidate lists with run-unique ids, after
`B.set_dominance(cands)` succeeds, `A`'s id is in `B`'s cached dominating set
iff `A` is strictly better in one coordinate and at least as good in the
other, or `A` and `B` are equal under the item `__eq__` (equal density and
equal value) and `A`'s sequence id is lower; in particular two exact
value/weight duplicates never mutually dominate. -/
theorem claim_C4_amended :
    (∀ (A B : KItem) (cands : List KItem) (s : Finset ℕ),
      (cands.map KItem.id).Nodup → A ∈ cands → setDominance B cands = .ok s →
      (A.id ∈ s ↔ (A.value > B.value ∧ A.weight ≤ B.weight) ∨
        (A.value ≥ B.value ∧ A.weight < B.weight) ∨
        (A.density = B.density ∧ A.value = B.value ∧ A.id < B.id))) ∧
    (∀ A B : KItem, A.value = B.value → A.weight = B.weight →
      ¬(dominatesb A B = true ∧ dominatesb B A = true)) := by
  constructor
  · intro A B cands s hnd hA hok
    have hs : s = ((cands.filter (fun c => dominatesb c B)).map KItem.id).toFinset := by
      unfold setDominance at hok
      split at hok
      · cases hok
      · injection hok with h; exact h.symm
    subst hs
    rw [List.mem_toFinset, List.mem_map]
    constructor
    · rintro ⟨c, hc, hcid⟩
      have hcands := List.mem_of_mem_filter hc
      have hcA : c = A := List.inj_on_of_nodup_map hnd hcands hA hcid
      subst hcA
      have hdom := List.of_mem_filter hc
      simp only [dominatesb, itemEqb, Bool.or_eq_true, Bool.and_eq_true,
        decide_eq_true_eq, beq_iff_eq] at hdom
      rcases hdom with (h | h) | ⟨⟨hd, hv⟩, hid⟩
      · exact Or.inl h
      · exact Or.inr (Or.inl h)
      · exact Or.inr (Or.inr ⟨hd, hv, hid⟩)
    · intro h
      refine ⟨A, List.mem_filter.mpr ⟨hA, ?_⟩, rfl⟩
      simp only [dominatesb, itemEqb, Bool.or_eq_true, Bool.and_eq_true,
        decide_eq_true_eq, beq_iff_eq]
      rcases h with h | h | ⟨hd, hv, hid⟩
      · exact Or.inl (Or.inl h)
      · exact Or.inl (Or.inr h)
      · exact Or.inr ⟨⟨hd, hv⟩, hid⟩
  · intro A B hv hw ⟨h1, h2⟩
    simp only [dominatesb, itemEqb, Bool.or_eq_true, Bool.and_eq_true,
      decide_eq_true_eq, beq_iff_eq] at h1 h2
    rcases h1 with (⟨h1a, h1b⟩ | ⟨h1a, h1b⟩) | ⟨⟨h1d, h1a⟩, h1b⟩ <;>
      rcases h2 with (⟨h2a, h2b⟩ | ⟨h2a, h2b⟩) | ⟨⟨h2d, h2a⟩, h2b⟩ <;> omega

theorem createRegF_found {f : ℕ} {a : Args} {r : Reg} {n : NodeR}
    (h : rfind r (structKey a) = some n) : createRegF (f + 1) a r = (n, r) := by
  rw [createRegF, h]

theorem rfind_createRegF_self (f : ℕ) (a : Args) (r : Reg) :
    rfind (createRegF (f + 1) a r).2 (structKey a) =
      some (createRegF (f + 1) a r).1 := by
  rw [createRegF]
  rcases hf : rfind r (structKey a) with _ | n
  · simp [rfind]
  · simp [hf]

/-- **C5.**  Two calls of `create` whose arguments yield the same structural
key return the identical node instance and the second call allocates
nothing: after the first call the registry maps the key to the returned node,
and `create` checks the registry before building. -/
theorem claim_C5 (a a' : Args) (r : Reg) (h : structKey a' = structKey a) :
    createReg a' (createReg a r).2 = ((createReg a r).1, (createReg a r).2) := by
  unfold createReg
  rw [createRegF, h, rfind_createRegF_self]

end KD


namespace KD

/-- The brute-force search stage of `get_node_distribution` (lines 517-530),
per problem variant, including the α = 0 witness-search skip. -/
noncomputable def bruteStage (R : List KItem) (fuel : ℕ) (a : Args) (p : Params) :
    Except KError PDict :=
  match p.ptype with
  | .OPTIMISATION => .ok (searchForOptimum R a p.delta p.alpha)
  | .DECISION =>
    if p.alpha = 0 then .ok dempty
    else
      match distFuel R fuel a ⟨0, 0, 0, 0, .DECISION, p.threshold⟩ with
      | .error e => .error e
      | .ok d0 =>
        match distFuel R fuel a ⟨0, 0, 0, 1, .DECISION, p.threshold⟩ with
        | .error e => .error e
        | .ok d1 =>
          .ok (witnessPart d0 d1 (p.threshold.getD 0) p.delta p.alpha)

open Classical in
/-- The continuation stage (lines 532-536): if residual mass remains, add an
item and continue the search through the children. -/
noncomputable def contStage (R : List KItem) (fuel : ℕ) (a : Args) (p : Params)
    (bd : PDict) : Except KError PDict :=
  if (1 - dsum bd : ℝ) = 0 then .ok bd
  else contList R fuel a p (1 - dsum bd) ((childNodes a).getD []) bd

open Classical in
/-- The final mass check (lines 538-540). -/
noncomputable def finishStage (fd : PDict) : Except KError PDict :=
  if iscloseR (dsum fd) 1 then .ok fd else .error .runtime

theorem distFuel_succ (R : List KItem) (f : ℕ) (a : Args) (p : Params)
    (hv : validate p = true) (ht : isTerminal a = false) :
    distFuel R (f + 1) a p =
      match bruteStage R f a p with
      | .error e => .error e
      | .ok bd =>
        match contStage R f a p bd with
        | .error e => .error e
        | .ok fd => finishStage fd := by
  rw [distFuel, if_neg (by simp [hv]), if_neg (by simp [ht])]
  rfl

theorem distFuel_zero (R : List KItem) (a : Args) (p : Params) :
    distFuel R 0 a p = .error .fuel := by
  rw [distFuel]

theorem distFuel_invalid (R : List KItem) (f : ℕ) (a : Args) (p : Params)
    (hv : validate p = false) :
    distFuel R (f + 1) a p = .error .validation := by
  rw [distFuel, if_pos hv]

theorem distFuel_terminal (R : List KItem) (f : ℕ) (a : Args) (p : Params)
    (hv : validate p = true) (ht : isTerminal a = true) :
    distFuel R (f + 1) a p = .ok (dset dempty (structKey a) 1) := by
  rw [distFuel, if_neg (by simp [hv]), if_pos (by simp [ht])]

end KD

namespace KD

theorem validate_baseline {p : Params} (hv : validate p = true)
    (hpt : p.ptype = .DECISION) {δ : ℚ} (hδ : 0 ≤ δ ∧ δ ≤ 1) :
    validate ⟨0, 0, 0, δ, .DECISION, p.threshold⟩ = true := by
  obtain ⟨pa, pb, pg, pd, pt, pth⟩ := p
  simp only at hpt
  subst hpt
  rcases pth with _ | t
  · simp [validate] at hv
  · simp only [validate, Bool.and_eq_true, decide_eq_true_eq] at hv
    simp [validate, hδ.1, hδ.2]
    exact hv.2.2

theorem contList_no_validation {R : List KItem} {f : ℕ}
    (hP : ∀ a p, validate p = true → distFuel R f a p ≠ .error .validation) :
    ∀ (l : List (KItem × Args)) (a : Args) (p : Params) (residual : ℝ) (d : PDict),
      validate p = true → contList R f a p residual l d ≠ .error .validation := by
  intro l
  induction l with
  | nil =>
    intro a p residual d hv h
    rw [contList] at h
    cases h
  | cons q rest ih =>
    intro a p residual d hv h
    obtain ⟨it, c⟩ := q
    rw [contList] at h
    rcases hc : distFuel R f c p with e | cd
    · rw [hc] at h
      injection h with h'
      exact hP c p hv (h' ▸ hc)
    · rw [hc] at h
      exact ih a p residual _ hv h

theorem bruteStage_no_validation {R : List KItem} {f : ℕ}
    (hP : ∀ a p, validate p = true → distFuel R f a p ≠ .error .validation)
    (a : Args) (p : Params) (hv : validate p = true) :
    bruteStage R f a p ≠ .error .validation := by
  intro h
  rw [bruteStage] at h
  rcases hpt : p.ptype with _ | _ <;> rw [hpt] at h
  · cases h
  · by_cases hα : p.alpha = 0
    · rw [if_pos hα] at h; cases h
    · rw [if_neg hα] at h
      rcases h0 : distFuel R f a ⟨0, 0, 0, 0, .DECISION, p.threshold⟩ with e | d0
      · rw [h0] at h
        injection h with h'
        exact hP a _ (validate_baseline hv hpt (by norm_num)) (h' ▸ h0)
      · rw [h0] at h
        rcases h1 : distFuel R f a ⟨0, 0, 0, 1, .DECISION, p.threshold⟩ with e | d1
        · rw [h1] at h
          injection h with h'
          exact hP a _ (validate_baseline hv hpt (by norm_num)) (h' ▸ h1)
        · rw [h1] at h
          cases h

theorem distFuel_no_validation (R : List KItem) :
    ∀ (f : ℕ) (a : Args) (p : Params), validate p = true →
      distFuel R f a p ≠ .error .validation := by
  intro f
  induction f with
  | zero =>
    intro a p hv h
    rw [distFuel_zero] at h
    cases h
  | succ f ih =>
    intro a p hv h
    by_cases ht : isTerminal a = true
    · rw [distFuel_terminal R f a p hv ht] at h; cases h
    · rw [distFuel_succ R f a p hv (by simpa using ht)] at h
      split at h
      · rename_i e heq
        injection h with h'
        exact bruteStage_no_validation ih a p hv (h' ▸ heq)
      · rename_i bd heq
        split at h
        · rename_i e heq2
          injection h with h'
          subst h'
          rw [contStage] at heq2
          by_cases hres : (1 - dsum bd : ℝ) = 0
          · rw [if_pos hres] at heq2; cases heq2
          · rw [if_neg hres] at heq2
            exact contList_no_validation ih _ a p _ bd hv heq2
        · rename_i fd heq2
          unfold finishStage at h
          by_cases hcl : iscloseR (dsum fd) 1
          · rw [if_pos hcl] at h; cases h
          · rw [if_neg hcl] at h; cases h

/-- **C9.**  `get_node_distribution` raises a validation error, leaving the
distribution memo (and the untouched node registry) unchanged, exactly when a
parameter is outside its declared range or the value threshold is missing,
negative, or wrongly supplied; for in-range tuples no validation error is
ever raised. -/
theorem claim_C9 :
    (∀ p : Params, validate p = true ↔
      (0 ≤ p.beta ∧ p.beta < 1 ∧ 0 ≤ p.gamma ∧ p.gamma < 1 ∧
       0 ≤ p.delta ∧ p.delta ≤ 1 ∧
       (p.ptype = .DECISION → 0 ≤ p.alpha ∧ p.alpha ≤ 1 ∧
          ∃ t, p.threshold = some t ∧ 0 ≤ t) ∧
       (p.ptype = .OPTIMISATION → 0 < p.alpha ∧ p.alpha ≤ 1 ∧ p.threshold = none))) ∧
    (∀ (R : List KItem) (f : ℕ) (a : Args) (p : Params) (m : Memo),
      validate p = false → mfind m (mkey a p) = none →
      distM R (f + 1) a p m = (.error .validation, m)) ∧
    (∀ (R : List KItem) (f : ℕ) (a : Args) (p : Params),
      validate p = true → distFuel R f a p ≠ .error .validation) := by
  refine ⟨?_, ?_, fun R f a p => distFuel_no_validation R f a p⟩
  · intro p
    obtain ⟨pa, pb, pg, pd, pt, pth⟩ := p
    rcases pt <;> rcases pth with _ | t <;>
      simp [validate, and_assoc] <;> tauto
  · intro R f a p m hv hm
    rw [distM, hm, if_pos hv]

end KD

namespace KD

/-- The call-stack depth needed by `get_node_distribution`: one frame per
eligible item plus the α = 0 baseline hand-off of the witness search. -/
def fuelNeed (a : Args) (p : Params) : ℕ :=
  a.items.length +
    (if p.ptype = ProblemType.DECISION ∧ p.alpha ≠ 0 then 2 else 1)

theorem contList_sufficient {R : List KItem} {f : ℕ}
    (hS : ∀ a p, validate p = true → fuelNeed a p ≤ f →
      distFuel R f a p ≠ .error .fuel) :
    ∀ (l : List (KItem × Args)) (a : Args) (p : Params) (residual : ℝ) (d : PDict),
      validate p = true → (∀ q ∈ l, fuelNeed q.2 p ≤ f) →
      contList R f a p residual l d ≠ .error .fuel := by
  intro l
  induction l with
  | nil =>
    intro a p residual d hv _ h
    rw [contList] at h
    cases h
  | cons q rest ih =>
    intro a p residual d hv hneed h
    obtain ⟨it, c⟩ := q
    rw [contList] at h
    rcases hc : distFuel R f c p with e | cd
    · rw [hc] at h
      injection h with h'
      exact hS c p hv (hneed (it, c) (List.mem_cons_self _ _)) (h' ▸ hc)
    · rw [hc] at h
      exact ih a p residual _ hv
        (fun q hq => hneed q (List.mem_cons_of_mem _ hq)) h

theorem bruteStage_sufficient {R : List KItem} {f : ℕ}
    (hS : ∀ a p, validate p = true → fuelNeed a p ≤ f →
      distFuel R f a p ≠ .error .fuel)
    (a : Args) (p : Params) (hv : validate p = true)
    (hlen : p.ptype = ProblemType.DECISION ∧ p.alpha ≠ 0 → a.items.length + 1 ≤ f) :
    bruteStage R f a p ≠ .error .fuel := by
  intro h
  rw [bruteStage] at h
  rcases hpt : p.ptype with _ | _ <;> rw [hpt] at h
  · cases h
  · by_cases hα : p.alpha = 0
    · rw [if_pos hα] at h; cases h
    · rw [if_neg hα] at h
      have hl1 : a.items.length + 1 ≤ f := hlen ⟨hpt, hα⟩
      have hneed : ∀ δ : ℚ, fuelNeed a ⟨0, 0, 0, δ, .DECISION, p.threshold⟩ ≤ f := by
        intro δ
        simp [fuelNeed]
        omega
      rcases h0 : distFuel R f a ⟨0, 0, 0, 0, .DECISION, p.threshold⟩ with e | d0
      · rw [h0] at h
        injection h with h'
        exact hS a _ (validate_baseline hv hpt (by norm_num)) (hneed 0) (h' ▸ h0)
      · rw [h0] at h
        rcases h1 : distFuel R f a ⟨0, 0, 0, 1, .DECISION, p.threshold⟩ with e | d1
        · rw [h1] at h
          injection h with h'
          exact hS a _ (validate_baseline hv hpt (by norm_num)) (hneed 1) (h' ▸ h1)
        · rw [h1] at h
          cases h

theorem distFuel_sufficient (R : List KItem) :
    ∀ (f : ℕ) (a : Args) (p : Params), validate p = true → fuelNeed a p ≤ f →
      distFuel R f a p ≠ .error .fuel := by
  intro f
  induction f with
  | zero =>
    intro a p hv hn
    exact absurd hn (by unfold fuelNeed; split <;> omega)
  | succ f ih =>
    intro a p hv hn h
    unfold fuelNeed at hn
    by_cases ht : isTerminal a = true
    · rw [distFuel_terminal R f a p hv ht] at h; cases h
    · have hn1 : p.ptype = ProblemType.DECISION ∧ p.alpha ≠ 0 →
          a.items.length + 1 ≤ f := by
        intro hc
        rw [if_pos hc] at hn
        omega
      rw [distFuel_succ R f a p hv (by simpa using ht)] at h
      split at h
      · rename_i e heq
        injection h with h'
        exact bruteStage_sufficient ih a p hv hn1 (h' ▸ heq)
      · rename_i bd heq
        split at h
        · rename_i e heq2
          injection h with h'
          subst h'
          rw [contStage] at heq2
          by_cases hres : (1 - dsum bd : ℝ) = 0
          · rw [if_pos hres] at heq2; cases heq2
          · rw [if_neg hres] at heq2
            obtain ⟨cs, hcs⟩ := isTerminal_false_iff.mp (by simpa using ht)
            refine contList_sufficient ih _ a p _ bd hv ?_ heq2
            intro q hq
            rw [hcs] at hq
            simp only [Option.getD_some] at hq
            have := childNodes_mem_length hcs hq
            unfold fuelNeed
            by_cases hc : p.ptype = ProblemType.DECISION ∧ p.alpha ≠ 0
            · rw [if_pos hc]; rw [if_pos hc] at hn; omega
            · rw [if_neg hc]; rw [if_neg hc] at hn; omega
        · rename_i fd heq2
          unfold finishStage at h
          by_cases hcl : iscloseR (dsum fd) 1
          · rw [if_pos hcl] at h; cases h
          · rw [if_neg hcl] at h; cases h

end KD

namespace KD

theorem density_nonneg (it : KItem) : (0 : ℚ) ≤ it.density := by
  unfold KItem.density
  positivity

theorem wfac_nonneg (it : KItem) (beta gamma : ℚ) : 0 ≤ wfac it beta gamma := by
  unfold wfac
  apply mul_nonneg
  · apply Real.rpow_nonneg
    exact_mod_cast density_nonneg it
  · apply Real.rpow_nonneg
    positivity

theorem wfac_baseline (it : KItem) : wfac it 0 0 = 1 := by
  unfold wfac
  norm_num

theorem dadd_ks_of_mem {d : PDict} {k : SKey} (v : ℝ) (h : k ∈ d.ks) :
    (dadd d k v).ks = d.ks := by
  simp [dadd, dset, h]

theorem foldl_dadd_ks_of_subset (g : SKey → ℝ) :
    ∀ (l : List SKey) (d : PDict), (∀ k ∈ l, k ∈ d.ks) →
      (l.foldl (fun d' k' => dadd d' k' (g k')) d).ks = d.ks := by
  intro l
  induction l with
  | nil => intro d _; rfl
  | cons b bs ih =>
    intro d hsub
    rw [List.foldl_cons, ih]
    · exact dadd_ks_of_mem (g b) (hsub b (List.mem_cons_self _ _))
    · intro k hk
      rw [dadd_ks_of_mem (g b) (hsub b (List.mem_cons_self _ _))]
      exact hsub k (List.mem_cons_of_mem _ hk)

theorem foldl_dadd_f (g : SKey → ℝ) :
    ∀ (l : List SKey), l.Nodup → ∀ (d : PDict) (k : SKey),
      (l.foldl (fun d' k' => dadd d' k' (g k')) d).f k =
        d.f k + (if k ∈ l then g k else 0) := by
  intro l
  induction l with
  | nil => intro _ d k; simp
  | cons b bs ih =>
    intro hnd d k
    have hbs : b ∉ bs := (List.nodup_cons.mp hnd).1
    rw [List.foldl_cons, ih (List.nodup_cons.mp hnd).2]
    by_cases hkb : k = b
    · subst hkb
      rw [dadd_f_same]
      simp [hbs]
    · rw [dadd_f_other (g b) hkb]
      by_cases hk : k ∈ bs <;> simp [hk, hkb]

/-- Plain-assignment fold over fresh keys, as the conditional form with a
constantly-true condition. -/
theorem foldl_dset_plain (l : List SKey) (g : SKey → ℝ)
    (d : PDict) (hwf : DWF d) (hnd : l.Nodup) (hfresh : ∀ k ∈ l, k ∉ d.ks) :
    (let r := l.foldl (fun d' k => dset d' k (g k)) d
     DWF r ∧ dsum r = dsum d + (l.map g).sum ∧
     r.ks = d.ks ++ l ∧
     (∀ k ∈ l, r.f k = g k) ∧
     (∀ k, k ∉ l → r.f k = d.f k)) := by
  have hfun : (fun (d' : PDict) (k : SKey) => dset d' k (g k)) =
      (fun (d' : PDict) (k : SKey) =>
        if (fun (_ : SKey) => true) k = true then dset d' k (g k) else d') := by
    funext d' k
    simp
  rw [hfun]
  have := foldl_dset_fresh l (fun _ => true) g d hwf hnd hfresh
  simpa using this

theorem exp_share_nonneg {x δ : ℝ} (hδ : 0 ≤ δ) : 0 ≤ δ * Real.exp x :=
  mul_nonneg hδ (le_of_lt (Real.exp_pos x))

theorem exp_share_le {x δ : ℝ} (hδ : 0 ≤ δ) (hx : x ≤ 0) :
    δ * Real.exp x ≤ δ := by
  calc δ * Real.exp x ≤ δ * 1 := by
        apply mul_le_mul_of_nonneg_left _ hδ
        exact Real.exp_le_one_iff.mpr hx
    _ = δ := mul_one δ

/-- The exponent `(1 - #nodes) * ((1-α)/α)` is non-positive whenever at least
one node is counted and `0 < α ≤ 1`. -/
theorem exp_arg_nonpos {n : ℕ} (hn : 1 ≤ n) {alpha : ℚ} (h0 : 0 < alpha)
    (h1 : alpha ≤ 1) :
    ((1 : ℝ) - (n : ℝ)) * ((1 - (alpha : ℝ)) / (alpha : ℝ)) ≤ 0 := by
  apply mul_nonpos_of_nonpos_of_nonneg
  · have : (1 : ℝ) ≤ (n : ℝ) := by exact_mod_cast hn
    linarith
  · apply div_nonneg
    · have : (alpha : ℝ) ≤ 1 := by exact_mod_cast h1
      linarith
    · positivity

end KD

namespace KD

theorem list_sum_const {β : Type} (l : List β) (c : ℝ) :
    (l.map (fun _ => c)).sum = l.length * c := by
  induction l with
  | nil => simp
  | cons b bs ih => simp [ih]; ring


theorem searchForOptimum_spec (R : List KItem) (a : Args) (delta alpha : ℚ) :
    DWF (searchForOptimum R a delta alpha) ∧
    (searchForOptimum R a delta alpha).ks = (optTermKeys a).toList ∧
    (∀ t, (searchForOptimum R a delta alpha).f t =
      (if t ∈ optTermKeys a then
        ((1 - (delta : ℝ)) *
          Real.exp ((1 - ((termKeys a).card : ℝ)) *
            ((1 - (alpha : ℝ)) / (alpha : ℝ)))) / ((optTermKeys a).card : ℝ)
       else 0) +
      (if t ∈ ndOptTermKeys R a then
        ((delta : ℝ) *
          Real.exp ((1 - ((ndTermKeys R a).card : ℝ)) *
            ((1 - (alpha : ℝ)) / (alpha : ℝ)))) / ((ndOptTermKeys R a).card : ℝ)
       else 0)) ∧
    dsum (searchForOptimum R a delta alpha) =
      (if (optTermKeys a).card = 0 then 0 else
        (1 - (delta : ℝ)) *
          Real.exp ((1 - ((termKeys a).card : ℝ)) * ((1 - (alpha : ℝ)) / (alpha : ℝ)))) +
      (if (ndOptTermKeys R a).card = 0 then 0 else
        (delta : ℝ) *
          Real.exp ((1 - ((ndTermKeys R a).card : ℝ)) * ((1 - (alpha : ℝ)) / (alpha : ℝ)))) := by
  set pF : ℝ := (1 - (delta : ℝ)) *
    Real.exp ((1 - ((termKeys a).card : ℝ)) * ((1 - (alpha : ℝ)) / (alpha : ℝ))) with hpF
  set pN : ℝ := (delta : ℝ) *
    Real.exp ((1 - ((ndTermKeys R a).card : ℝ)) * ((1 - (alpha : ℝ)) / (alpha : ℝ))) with hpN
  obtain ⟨w1, w2, w3, w4, w5⟩ := foldl_dset_plain (optTermKeys a).toList
    (fun _ => pF / ((optTermKeys a).card : ℝ)) dempty dwf_empty
    (Finset.nodup_toList _) (fun k _ => by simp [dempty])
  beta_reduce at w1 w2 w3 w4 w5
  set d1 : PDict := (optTermKeys a).toList.foldl
    (fun d t => dset d t (pF / ((optTermKeys a).card : ℝ))) dempty with hd1
  have hd1ks : d1.ks = (optTermKeys a).toList := by
    rw [w3]; simp [dempty]
  have hr : searchForOptimum R a delta alpha = (ndOptTermKeys R a).toList.foldl
      (fun d t => dadd d t (pN / ((ndOptTermKeys R a).card : ℝ))) d1 := by
    rw [searchForOptimum]
  have hsub : ∀ k ∈ (ndOptTermKeys R a).toList, k ∈ d1.ks := by
    intro k hk
    rw [hd1ks, Finset.mem_toList]
    exact Finset.filter_subset _ (optTermKeys a) (Finset.mem_toList.mp hk)
  have hks : (searchForOptimum R a delta alpha).ks = (optTermKeys a).toList := by
    rw [hr, foldl_dadd_ks_of_subset _ _ d1 hsub, hd1ks]
  obtain ⟨hsum2, hwf2⟩ := foldl_step_sum
    (fun d t => dadd d t (pN / ((ndOptTermKeys R a).card : ℝ)))
    (fun _ => pN / ((ndOptTermKeys R a).card : ℝ))
    (fun d b hd => ⟨dsum_dadd hd b _, dwf_dadd hd b _⟩)
    (ndOptTermKeys R a).toList d1 w1
  refine ⟨by rw [hr]; exact hwf2, hks, ?_, ?_⟩
  · intro t
    have hv2 := foldl_dadd_f (fun _ => pN / ((ndOptTermKeys R a).card : ℝ))
      (ndOptTermKeys R a).toList (Finset.nodup_toList _) d1 t
    simp only [] at hv2
    rw [hr, hv2]
    by_cases h1 : t ∈ optTermKeys a
    · rw [w4 t (Finset.mem_toList.mpr h1)]
      by_cases h2 : t ∈ ndOptTermKeys R a <;>
        simp [h1, h2, Finset.mem_toList]
    · have h2 : t ∉ ndOptTermKeys R a := fun hc =>
        h1 (Finset.filter_subset _ (optTermKeys a) hc)
      rw [w5 t (fun hc => h1 (Finset.mem_toList.mp hc))]
      simp [h1, h2, Finset.mem_toList, dempty]
  · rw [hr, hsum2, w2]
    simp only [dempty, dsum, List.map_nil, List.sum_nil, zero_add]
    rw [list_sum_const, list_sum_const, Finset.length_toList, Finset.length_toList]
    rcases Nat.eq_zero_or_pos (optTermKeys a).card with h1 | h1
    · rcases Nat.eq_zero_or_pos (ndOptTermKeys R a).card with h2 | h2
      · simp [h1, h2]
      · have h2' : ((ndOptTermKeys R a).card : ℝ) ≠ 0 := by positivity
        simp only [h1, if_pos, Nat.cast_zero, zero_mul, Nat.pos_iff_ne_zero.mp h2, if_neg]
        rw [mul_div_cancel₀ _ h2']
        simp [h1, Nat.pos_iff_ne_zero.mp h2]
    · rcases Nat.eq_zero_or_pos (ndOptTermKeys R a).card with h2 | h2
      · have h1' : ((optTermKeys a).card : ℝ) ≠ 0 := by positivity
        rw [mul_div_cancel₀ _ h1']
        simp [h2, Nat.pos_iff_ne_zero.mp h1]
      · have h1' : ((optTermKeys a).card : ℝ) ≠ 0 := by positivity
        have h2' : ((ndOptTermKeys R a).card : ℝ) ≠ 0 := by positivity
        rw [mul_div_cancel₀ _ h1', mul_div_cancel₀ _ h2']
        simp [Nat.pos_iff_ne_zero.mp h1, Nat.pos_iff_ne_zero.mp h2]

end KD

namespace KD

theorem list_sum_smul {β : Type} (l : List β) (c : ℝ) (f : β → ℝ) :
    (l.map (fun k => c * f k)).sum = c * (l.map f).sum := by
  induction l with
  | nil => simp
  | cons b bs ih => simp [ih]; ring

theorem list_sum_ite {β : Type} (l : List β) (c : β → Bool) (g : β → ℝ) :
    (l.map (fun b => if c b then g b else 0)).sum = ((l.filter c).map g).sum := by
  induction l with
  | nil => simp
  | cons b bs ih =>
    rw [List.map_cons, List.sum_cons, List.filter_cons]
    by_cases hc : c b = true
    · simp only [hc, if_pos, List.map_cons, List.sum_cons, ih]
    · simp only [hc]
      simp only [Bool.false_eq_true, if_false, ih, zero_add]

theorem list_sum_filter_le {β : Type} (l : List β) (c : β → Bool) (f : β → ℝ)
    (hf : ∀ k ∈ l, 0 ≤ f k) :
    ((l.filter c).map f).sum ≤ (l.map f).sum := by
  induction l with
  | nil => simp
  | cons b bs ih =>
    have hb := hf b (List.mem_cons_self _ _)
    have ih' := ih (fun k hk => hf k (List.mem_cons_of_mem _ hk))
    rw [List.filter_cons]
    by_cases hc : c b = true
    · simp only [hc, if_pos, List.map_cons, List.sum_cons]
      linarith
    · simp only [hc, Bool.false_eq_true, if_false, List.map_cons, List.sum_cons]
      linarith

theorem list_sum_nonneg {β : Type} (l : List β) (f : β → ℝ)
    (hf : ∀ k ∈ l, 0 ≤ f k) : 0 ≤ (l.map f).sum := by
  induction l with
  | nil => simp
  | cons b bs ih =>
    have hb := hf b (List.mem_cons_self _ _)
    have ih' := ih (fun k hk => hf k (List.mem_cons_of_mem _ hk))
    rw [List.map_cons, List.sum_cons]
    linarith

theorem div_self_le_one {x : ℝ} (hx : 0 ≤ x) : x * x⁻¹ ≤ 1 := by
  rcases eq_or_lt_of_le hx with h | h
  · simp [← h]
  · rw [mul_inv_cancel₀ (ne_of_gt h)]

end KD

namespace KD

/-- The qualifying test of the witness search as a boolean. -/
def qualB (thr : ℤ) (k : SKey) : Bool := decide (thr ≤ (k.core.sv : ℤ))

theorem witnessPart_eq (d0 d1 : PDict) (thr : ℤ) (delta alpha : ℚ) :
    witnessPart d0 d1 thr delta alpha =
      (let p0 : ℝ := ((d0.ks.filter (qualB thr)).map d0.f).sum
       let p1 : ℝ := ((d1.ks.filter (qualB thr)).map d1.f).sum
       let pF : ℝ := (1 - (delta : ℝ)) * p0 ^ ((1 - (alpha : ℝ)) / (alpha : ℝ))
       let pN : ℝ := (delta : ℝ) * p1 ^ ((1 - (alpha : ℝ)) / (alpha : ℝ))
       let e1 := d0.ks.foldl (fun d k =>
         if qualB thr k = true then dset d k (pF * (d0.f k / p0)) else d) dempty
       d1.ks.foldl (fun d k =>
         if qualB thr k = true then dadd d k (pN * (d1.f k / p1)) else d) e1) := by
  rw [witnessPart]
  have h1 : ∀ (g : SKey → ℝ),
      (fun (d : PDict) (k : SKey) => if thr ≤ (k.core.sv : ℤ) then dset d k (g k) else d) =
      (fun (d : PDict) (k : SKey) => if qualB thr k = true then dset d k (g k) else d) := by
    intro g
    funext d k
    by_cases h : thr ≤ (k.core.sv : ℤ) <;> simp [h, qualB]
  have h2 : ∀ (g : SKey → ℝ),
      (fun (d : PDict) (k : SKey) => if thr ≤ (k.core.sv : ℤ) then dadd d k (g k) else d) =
      (fun (d : PDict) (k : SKey) => if qualB thr k = true then dadd d k (g k) else d) := by
    intro g
    funext d k
    by_cases h : thr ≤ (k.core.sv : ℤ) <;> simp [h, qualB]
  rw [h1, h2]
  simp only [qualB]
  rfl

theorem witnessPart_spec (d0 d1 : PDict) (thr : ℤ) (delta alpha : ℚ)
    (hwf0 : DWF d0) (hwf1 : DWF d1) (hn0 : DNonneg d0) (hn1 : DNonneg d1)
    (hδ : 0 ≤ delta ∧ delta ≤ 1) (hα : 0 < alpha ∧ alpha ≤ 1)
    (hs0 : dsum d0 = 1) (hs1 : dsum d1 = 1) :
    DWF (witnessPart d0 d1 thr delta alpha) ∧
    DNonneg (witnessPart d0 d1 thr delta alpha) ∧
    dsum (witnessPart d0 d1 thr delta alpha) ≤ 1 ∧
    (∀ k ∈ (witnessPart d0 d1 thr delta alpha).ks, k ∈ d0.ks ∨ k ∈ d1.ks) := by
  rw [witnessPart_eq]
  set p0 : ℝ := ((d0.ks.filter (qualB thr)).map d0.f).sum with hp0
  set p1 : ℝ := ((d1.ks.filter (qualB thr)).map d1.f).sum with hp1
  set e : ℝ := (1 - (alpha : ℝ)) / (alpha : ℝ) with he
  set pF : ℝ := (1 - (delta : ℝ)) * p0 ^ e with hpF
  set pN : ℝ := (delta : ℝ) * p1 ^ e with hpN
  have hf0 : ∀ k, 0 ≤ d0.f k := by
    intro k
    by_cases h : k ∈ d0.ks
    · exact hn0 k h
    · rw [hwf0.2 k h]
  have hf1 : ∀ k, 0 ≤ d1.f k := by
    intro k
    by_cases h : k ∈ d1.ks
    · exact hn1 k h
    · rw [hwf1.2 k h]
  have hp0n : 0 ≤ p0 := list_sum_nonneg _ _ (fun k _ => hf0 k)
  have hp1n : 0 ≤ p1 := list_sum_nonneg _ _ (fun k _ => hf1 k)
  have hp0le : p0 ≤ 1 := by
    rw [hp0, ← hs0]
    exact list_sum_filter_le _ _ _ (fun k _ => hf0 k)
  have hp1le : p1 ≤ 1 := by
    rw [hp1, ← hs1]
    exact list_sum_filter_le _ _ _ (fun k _ => hf1 k)
  have hen : 0 ≤ e := by
    rw [he]
    apply div_nonneg
    · have : (alpha : ℝ) ≤ 1 := by exact_mod_cast hα.2
      linarith
    · have : (0 : ℝ) < (alpha : ℝ) := by exact_mod_cast hα.1
      linarith
  have hδ' : (0 : ℝ) ≤ (delta : ℝ) ∧ (delta : ℝ) ≤ 1 :=
    ⟨by exact_mod_cast hδ.1, by exact_mod_cast hδ.2⟩
  have hpFn : 0 ≤ pF := mul_nonneg (by linarith [hδ'.2]) (Real.rpow_nonneg hp0n e)
  have hpNn : 0 ≤ pN := mul_nonneg hδ'.1 (Real.rpow_nonneg hp1n e)
  have hpFle : pF ≤ 1 - (delta : ℝ) := by
    rw [hpF]
    calc (1 - (delta : ℝ)) * p0 ^ e ≤ (1 - (delta : ℝ)) * 1 := by
          apply mul_le_mul_of_nonneg_left _ (by linarith [hδ'.2])
          exact Real.rpow_le_one hp0n hp0le hen
      _ = 1 - (delta : ℝ) := mul_one _
  have hpNle : pN ≤ (delta : ℝ) := by
    rw [hpN]
    calc (delta : ℝ) * p1 ^ e ≤ (delta : ℝ) * 1 := by
          apply mul_le_mul_of_nonneg_left _ hδ'.1
          exact Real.rpow_le_one hp1n hp1le hen
      _ = (delta : ℝ) := mul_one _
  obtain ⟨w1, w2, w3, w4, w5⟩ := foldl_dset_fresh d0.ks (qualB thr)
    (fun k => pF * (d0.f k / p0)) dempty dwf_empty hwf0.1
    (fun k _ => by simp [dempty])
  set e1 : PDict := d0.ks.foldl (fun d k =>
    if qualB thr k = true then dset d k (pF * (d0.f k / p0)) else d) dempty with he1
  have he1sum : dsum e1 ≤ pF := by
    rw [w2]
    simp only [dempty, dsum, List.map_nil, List.sum_nil, zero_add]
    have : ((d0.ks.filter (qualB thr)).map (fun k => pF * (d0.f k / p0))).sum =
        pF * (p0 * p0⁻¹) := by
      have hcong : (d0.ks.filter (qualB thr)).map (fun k => pF * (d0.f k / p0)) =
          (d0.ks.filter (qualB thr)).map (fun k => (pF * p0⁻¹) * d0.f k) := by
        apply List.map_congr_left
        intro k _
        rw [div_eq_mul_inv]
        ring
      rw [hcong, list_sum_smul, ← hp0]
      ring
    rw [this]
    calc pF * (p0 * p0⁻¹) ≤ pF * 1 :=
          mul_le_mul_of_nonneg_left (div_self_le_one hp0n) hpFn
      _ = pF := mul_one pF
  have he1nonneg : DNonneg e1 := by
    intro k hk
    rw [w3] at hk
    simp only [dempty, List.nil_append] at hk
    have hmem := List.mem_of_mem_filter hk
    have hq := List.of_mem_filter hk
    rw [w4 k hmem hq]
    exact mul_nonneg hpFn (div_nonneg (hf0 k) hp0n)
  have he1keys : ∀ k ∈ e1.ks, k ∈ d0.ks := by
    intro k hk
    rw [w3] at hk
    simp only [dempty, List.nil_append] at hk
    exact List.mem_of_mem_filter hk
  obtain ⟨s2, s2wf⟩ := foldl_step_sum
    (fun d k => if qualB thr k = true then dadd d k (pN * (d1.f k / p1)) else d)
    (fun k => if qualB thr k = true then pN * (d1.f k / p1) else 0)
    (fun d b hd => by
      by_cases hq : qualB thr b = true
      · simp only [hq, if_pos]
        exact ⟨dsum_dadd hd b _, dwf_dadd hd b _⟩
      · simp only [hq, Bool.false_eq_true, if_false]
        exact ⟨by ring, hd⟩)
    d1.ks e1 w1
  refine ⟨s2wf, ?_, ?_, ?_⟩
  · obtain ⟨n2, _⟩ := foldl_step_nonneg
      (fun d k => if qualB thr k = true then dadd d k (pN * (d1.f k / p1)) else d)
      (fun d b hd hn => by
        by_cases hq : qualB thr b = true
        · simp only [hq, if_pos]
          exact ⟨dnonneg_dadd hd hn
            (mul_nonneg hpNn (div_nonneg (hf1 b) hp1n)), dwf_dadd hd b _⟩
        · simp only [hq, Bool.false_eq_true, if_false]
          exact ⟨hn, hd⟩)
      d1.ks e1 w1 he1nonneg
    exact n2
  · rw [s2]
    have hsum2 : ((d1.ks.map (fun k =>
        if qualB thr k = true then pN * (d1.f k / p1) else 0)).sum) =
        pN * (p1 * p1⁻¹) := by
      rw [list_sum_ite]
      have hcong : (d1.ks.filter (qualB thr)).map (fun k => pN * (d1.f k / p1)) =
          (d1.ks.filter (qualB thr)).map (fun k => (pN * p1⁻¹) * d1.f k) := by
        apply List.map_congr_left
        intro k _
        rw [div_eq_mul_inv]
        ring
      rw [hcong, list_sum_smul, ← hp1]
      ring
    rw [hsum2]
    have h2le : pN * (p1 * p1⁻¹) ≤ pN :=
      calc pN * (p1 * p1⁻¹) ≤ pN * 1 :=
            mul_le_mul_of_nonneg_left (div_self_le_one hp1n) hpNn
        _ = pN := mul_one pN
    have hδ2 := hδ'.2
    linarith [he1sum, h2le, hpFle, hpNle]
  · intro k hk
    have := foldl_step_mem
      (fun d k => if qualB thr k = true then dadd d k (pN * (d1.f k / p1)) else d)
      (fun b => b)
      (fun d b k' hk' => by
        by_cases hq : qualB thr b = true
        · simp only [hq, if_pos] at hk'
          exact mem_dadd.mp hk'
        · simp only [hq, Bool.false_eq_true, if_false] at hk'
          exact Or.inl hk')
      d1.ks e1 k hk
    rcases this with h | ⟨b, hb, rfl⟩
    · exact Or.inl (he1keys k h)
    · exact Or.inr hb

end KD

namespace KD

/-- `transformed_divisor_all` of `_add_item_and_continue_search`. -/
noncomputable def wAllOf (a : Args) (p : Params) : ℝ :=
  (((childNodes a).getD []).map (fun q => wfac q.1 p.beta p.gamma)).sum

/-- `transformed_divisor_non_dominated`. -/
noncomputable def wNdOf (R : List KItem) (a : Args) (p : Params) : ℝ :=
  (((childNodes a).getD []).map (fun q =>
    if q.1.id ∈ nonDomItems R a then wfac q.1 p.beta p.gamma else 0)).sum

/-- The total coefficient with which one child's distribution enters the
parent's continuation. -/
noncomputable def contCoef (R : List KItem) (a : Args) (p : Params)
    (residual : ℝ) (it : KItem) : ℝ :=
  residual * (1 - (p.delta : ℝ)) * (wfac it p.beta p.gamma / wAllOf a p) +
    (if it.id ∈ nonDomItems R a then
      residual * (p.delta : ℝ) * (wfac it p.beta p.gamma / wNdOf R a p) else 0)

theorem contCoef_nonneg (R : List KItem) (a : Args) (p : Params)
    {residual : ℝ} (hres : 0 ≤ residual) (hδ : 0 ≤ p.delta ∧ p.delta ≤ 1)
    (it : KItem) : 0 ≤ contCoef R a p residual it := by
  have hδ1 : (p.delta : ℝ) ≤ 1 := by exact_mod_cast hδ.2
  have hδ0 : (0 : ℝ) ≤ (p.delta : ℝ) := by exact_mod_cast hδ.1
  have hwAll : 0 ≤ wAllOf a p :=
    list_sum_nonneg _ _ (fun q _ => wfac_nonneg q.1 p.beta p.gamma)
  have hwNd : 0 ≤ wNdOf R a p := by
    apply list_sum_nonneg
    intro q _
    by_cases h : q.1.id ∈ nonDomItems R a
    · simp only [h, if_pos]
      exact wfac_nonneg q.1 p.beta p.gamma
    · simp [h]
  unfold contCoef
  apply add_nonneg
  · apply mul_nonneg (mul_nonneg hres (by linarith))
    exact div_nonneg (wfac_nonneg it p.beta p.gamma) hwAll
  · by_cases h : it.id ∈ nonDomItems R a
    · simp only [h, if_pos]
      apply mul_nonneg (mul_nonneg hres hδ0)
      exact div_nonneg (wfac_nonneg it p.beta p.gamma) hwNd
    · simp [h]

theorem addChildMass_spec (R : List KItem) (a : Args) (p : Params)
    (residual : ℝ) (it : KItem) (cd d : PDict)
    (hwf : DWF d) (hwfc : DWF cd) (hnc : DNonneg cd)
    (hres : 0 ≤ residual) (hδ : 0 ≤ p.delta ∧ p.delta ≤ 1) :
    DWF (addChildMass R a p residual it cd d) ∧
    (DNonneg d → DNonneg (addChildMass R a p residual it cd d)) ∧
    dsum (addChildMass R a p residual it cd d) =
      dsum d + contCoef R a p residual it * dsum cd ∧
    (∀ k ∈ (addChildMass R a p residual it cd d).ks, k ∈ d.ks ∨ k ∈ cd.ks) := by
  have hfc : ∀ k, 0 ≤ cd.f k := by
    intro k
    by_cases h : k ∈ cd.ks
    · exact hnc k h
    · rw [hwfc.2 k h]
  have hδ1 : (p.delta : ℝ) ≤ 1 := by exact_mod_cast hδ.2
  have hδ0 : (0 : ℝ) ≤ (p.delta : ℝ) := by exact_mod_cast hδ.1
  have hwAll : 0 ≤ wAllOf a p :=
    list_sum_nonneg _ _ (fun q _ => wfac_nonneg q.1 p.beta p.gamma)
  have hwNd : 0 ≤ wNdOf R a p := by
    apply list_sum_nonneg
    intro q _
    by_cases h : q.1.id ∈ nonDomItems R a
    · simp only [h, if_pos]
      exact wfac_nonneg q.1 p.beta p.gamma
    · simp [h]
  have hv1 : ∀ b, 0 ≤ residual * (1 - (p.delta : ℝ)) *
      (wfac it p.beta p.gamma / wAllOf a p) * cd.f b := by
    intro b
    apply mul_nonneg (mul_nonneg (mul_nonneg hres (by linarith)) _) (hfc b)
    exact div_nonneg (wfac_nonneg it p.beta p.gamma) hwAll
  have hv2 : ∀ b, 0 ≤ residual * (p.delta : ℝ) *
      (wfac it p.beta p.gamma / wNdOf R a p) * cd.f b := by
    intro b
    apply mul_nonneg (mul_nonneg (mul_nonneg hres hδ0) _) (hfc b)
    exact div_nonneg (wfac_nonneg it p.beta p.gamma) hwNd
  have hstep : ∀ (d' : PDict) (b : SKey), DWF d' →
      dsum ((fun (d'' : PDict) (k : SKey) =>
        let d2 := dadd d'' k (residual * (1 - (p.delta : ℝ)) *
          (wfac it p.beta p.gamma / wAllOf a p) * cd.f k)
        if it.id ∈ nonDomItems R a then
          dadd d2 k (residual * (p.delta : ℝ) *
            (wfac it p.beta p.gamma / wNdOf R a p) * cd.f k)
        else d2) d' b) = dsum d' + contCoef R a p residual it * cd.f b ∧
      DWF ((fun (d'' : PDict) (k : SKey) =>
        let d2 := dadd d'' k (residual * (1 - (p.delta : ℝ)) *
          (wfac it p.beta p.gamma / wAllOf a p) * cd.f k)
        if it.id ∈ nonDomItems R a then
          dadd d2 k (residual * (p.delta : ℝ) *
            (wfac it p.beta p.gamma / wNdOf R a p) * cd.f k)
        else d2) d' b) := by
    intro d' b hd'
    by_cases h : it.id ∈ nonDomItems R a
    · simp only [h, if_pos]
      constructor
      · rw [dsum_dadd (dwf_dadd hd' b _) b, dsum_dadd hd' b]
        unfold contCoef
        rw [if_pos h]
        ring
      · exact dwf_dadd (dwf_dadd hd' b _) b _
    · simp only [h, if_neg, if_false]
      constructor
      · rw [dsum_dadd hd' b]
        unfold contCoef
        rw [if_neg h]
        ring
      · exact dwf_dadd hd' b _
  have haddeq : addChildMass R a p residual it cd d =
      cd.ks.foldl (fun (d'' : PDict) (k : SKey) =>
        let d2 := dadd d'' k (residual * (1 - (p.delta : ℝ)) *
          (wfac it p.beta p.gamma / wAllOf a p) * cd.f k)
        if it.id ∈ nonDomItems R a then
          dadd d2 k (residual * (p.delta : ℝ) *
            (wfac it p.beta p.gamma / wNdOf R a p) * cd.f k)
        else d2) d := by
    rw [addChildMass]
    rfl
  obtain ⟨hsum, hwf'⟩ := foldl_step_sum _ (fun b => contCoef R a p residual it * cd.f b)
    hstep cd.ks d hwf
  rw [haddeq]
  refine ⟨hwf', ?_, ?_, ?_⟩
  · intro hnd
    obtain ⟨hn', _⟩ := foldl_step_nonneg (fun (d'' : PDict) (k : SKey) =>
        let d2 := dadd d'' k (residual * (1 - (p.delta : ℝ)) *
          (wfac it p.beta p.gamma / wAllOf a p) * cd.f k)
        if it.id ∈ nonDomItems R a then
          dadd d2 k (residual * (p.delta : ℝ) *
            (wfac it p.beta p.gamma / wNdOf R a p) * cd.f k)
        else d2)
      (fun d' b hd' hn' => by
        by_cases h : it.id ∈ nonDomItems R a
        · simp only [h, if_true]
          exact ⟨dnonneg_dadd (dwf_dadd hd' b _)
              (dnonneg_dadd hd' hn' (hv1 b)) (hv2 b),
            dwf_dadd (dwf_dadd hd' b _) b _⟩
        · simp only [h, if_false]
          exact ⟨dnonneg_dadd hd' hn' (hv1 b), dwf_dadd hd' b _⟩)
      cd.ks d hwf hnd
    exact hn'
  · rw [hsum, list_sum_smul]
    rfl
  · intro k hk
    have := foldl_step_mem (fun (d'' : PDict) (k : SKey) =>
        let d2 := dadd d'' k (residual * (1 - (p.delta : ℝ)) *
          (wfac it p.beta p.gamma / wAllOf a p) * cd.f k)
        if it.id ∈ nonDomItems R a then
          dadd d2 k (residual * (p.delta : ℝ) *
            (wfac it p.beta p.gamma / wNdOf R a p) * cd.f k)
        else d2) (fun b => b)
      (fun d' b k' hk' => by
        by_cases h : it.id ∈ nonDomItems R a
        · simp only [h, if_true] at hk'
          rcases mem_dadd.mp hk' with h' | rfl
          · exact mem_dadd.mp h'
          · exact Or.inr rfl
        · simp only [h, if_false] at hk'
          exact mem_dadd.mp hk')
      cd.ks d k hk
    rcases this with h | ⟨b, hb, rfl⟩
    · exact Or.inl h
    · exact Or.inr hb

end KD

namespace KD

theorem list_sum_add {β : Type} (l : List β) (f g : β → ℝ) :
    (l.map (fun x => f x + g x)).sum = (l.map f).sum + (l.map g).sum := by
  induction l with
  | nil => simp
  | cons b bs ih => simp [ih]; ring

/-- The parameter tuples of the two recursive baseline searches of
`_search_for_witness`. -/
def isBaseline (p : Params) : Prop :=
  p.alpha = 0 ∧ p.beta = 0 ∧ p.gamma = 0 ∧ (p.delta = 0 ∨ p.delta = 1) ∧
    p.ptype = ProblemType.DECISION

theorem validate_fields {p : Params} (hv : validate p = true) :
    (0 ≤ p.beta ∧ p.beta < 1) ∧ (0 ≤ p.gamma ∧ p.gamma < 1) ∧
    (0 ≤ p.delta ∧ p.delta ≤ 1) ∧
    (p.ptype = .DECISION → 0 ≤ p.alpha ∧ p.alpha ≤ 1 ∧
      ∃ t, p.threshold = some t ∧ 0 ≤ t) ∧
    (p.ptype = .OPTIMISATION → 0 < p.alpha ∧ p.alpha ≤ 1 ∧ p.threshold = none) := by
  obtain ⟨pa, pb, pg, pd, pt, pth⟩ := p
  rcases pt <;> rcases pth with _ | t <;>
    simp only [validate, Bool.and_eq_true, decide_eq_true_eq, beq_iff_eq] at hv <;>
    simp only [] <;>
    first
    | (exfalso; tauto)
    | (refine ⟨⟨hv.1.1.1.1, hv.1.1.1.2⟩, ⟨hv.1.1.2.1, hv.1.1.2.2⟩,
        ⟨hv.1.2.1, hv.1.2.2⟩, ?_, ?_⟩ <;> intro hpt <;> first
        | simp at hpt
        | exact ⟨hv.2.1.1, hv.2.1.2, t, rfl, hv.2.2⟩
        | exact ⟨hv.2.1.1, hv.2.1.2, trivial⟩
        | exact ⟨hv.2.1.1, hv.2.1.2, rfl⟩)

theorem contList_spec (R : List KItem) (f : ℕ) (a : Args) (p : Params)
    (hΦ : ∀ (a' : Args) (d' : PDict), distFuel R f a' p = .ok d' →
      DWF d' ∧ DNonneg d' ∧ (isBaseline p → dsum d' = 1))
    (residual : ℝ) (hres : 0 ≤ residual) (hδ : 0 ≤ p.delta ∧ p.delta ≤ 1) :
    ∀ (l : List (KItem × Args)) (d fd : PDict), DWF d → DNonneg d →
      contList R f a p residual l d = .ok fd →
      DWF fd ∧ DNonneg fd ∧
      (isBaseline p → dsum fd = dsum d +
        (l.map (fun q => contCoef R a p residual q.1)).sum) := by
  intro l
  induction l with
  | nil =>
    intro d fd hwf hnd hok
    rw [contList] at hok
    injection hok with hok
    subst hok
    exact ⟨hwf, hnd, fun _ => by simp⟩
  | cons q rest ih =>
    intro d fd hwf hnd hok
    obtain ⟨it, c⟩ := q
    rw [contList] at hok
    rcases hc : distFuel R f c p with e | cd
    · rw [hc] at hok; cases hok
    · rw [hc] at hok
      obtain ⟨hwfc, hnc, hbc⟩ := hΦ c cd hc
      obtain ⟨a1, a2, a3, _⟩ := addChildMass_spec R a p residual it cd d
        hwf hwfc hnc hres hδ
      obtain ⟨r1, r2, r3⟩ := ih _ fd a1 (a2 hnd) hok
      refine ⟨r1, r2, fun hb => ?_⟩
      rw [r3 hb, a3, hbc hb]
      simp only [List.map_cons, List.sum_cons]
      ring

end KD

namespace KD

theorem baseline_coef_sum (R : List KItem) (a : Args) (p : Params)
    (hb : isBaseline p) {cs : List (KItem × Args)}
    (hcs : childNodes a = some cs) :
    (cs.map (fun q => contCoef R a p 1 q.1)).sum = 1 ∨
    (cs.map (fun q => contCoef R a p 1 q.1)).sum = 0 := by
  obtain ⟨hα, hβ, hγ, hδ, hpt⟩ := hb
  have hne := childNodes_ne_nil hcs
  set nd := nonDomItems R a with hnd
  set cnt := (cs.filter (fun q => decide (q.1.id ∈ nd))).length with hcnt
  have hwA : wAllOf a p = (cs.length : ℝ) := by
    rw [wAllOf, hcs]
    simp only [Option.getD_some]
    have hmc : cs.map (fun q => wfac q.1 p.beta p.gamma) =
        cs.map (fun _ => (1 : ℝ)) :=
      List.map_congr_left (fun q _ => by rw [hβ, hγ, wfac_baseline])
    rw [hmc, list_sum_const, mul_one]
  have hwN : wNdOf R a p = (cnt : ℝ) := by
    rw [wNdOf, hcs]
    simp only [Option.getD_some]
    have hmc : cs.map (fun q => if q.1.id ∈ nd then wfac q.1 p.beta p.gamma else 0) =
        cs.map (fun q => if (fun q' => decide (q'.1.id ∈ nd)) q = true
          then (1 : ℝ) else 0) :=
      List.map_congr_left (fun q _ => by
        by_cases h : q.1.id ∈ nd <;> simp [h, hβ, hγ, wfac_baseline])
    rw [hmc, list_sum_ite]
    have : ((cs.filter (fun q' => decide (q'.1.id ∈ nd))).map
        (fun _ => (1 : ℝ))).sum =
        ((cs.filter (fun q' => decide (q'.1.id ∈ nd))).length : ℝ) * 1 :=
      list_sum_const _ 1
    rw [this, mul_one, hcnt]
  have hmap : cs.map (fun q => contCoef R a p 1 q.1) =
      cs.map (fun q => (1 - (p.delta : ℝ)) * ((cs.length : ℝ))⁻¹ +
        (if (fun q' => decide (q'.1.id ∈ nd)) q = true
         then (p.delta : ℝ) * ((cnt : ℝ))⁻¹ else 0)) :=
    List.map_congr_left (fun q _ => by
      unfold contCoef
      rw [hwA, hwN, hβ, hγ, wfac_baseline, ← hnd]
      by_cases h : q.1.id ∈ nd
      · simp only [h, if_pos, decide_eq_true_eq, if_true]
        rw [div_eq_mul_inv, div_eq_mul_inv]
        ring
      · simp only [h, decide_eq_true_eq, if_false]
        rw [div_eq_mul_inv]
        ring)
  rw [hmap, list_sum_add]
  have h1 : (cs.map (fun _ => (1 - (p.delta : ℝ)) * ((cs.length : ℝ))⁻¹)).sum =
      (1 - (p.delta : ℝ)) * ((cs.length : ℝ) * ((cs.length : ℝ))⁻¹) := by
    rw [list_sum_const]
    ring
  have h2 : (cs.map (fun q =>
      if (fun q' => decide (q'.1.id ∈ nd)) q = true
      then (p.delta : ℝ) * ((cnt : ℝ))⁻¹ else 0)).sum =
      (p.delta : ℝ) * ((cnt : ℝ) * ((cnt : ℝ))⁻¹) := by
    rw [list_sum_ite]
    have := list_sum_const (cs.filter (fun q' => decide (q'.1.id ∈ nd)))
      ((p.delta : ℝ) * ((cnt : ℝ))⁻¹)
    rw [this, ← hcnt]
    ring
  rw [h1, h2]
  have hlen : ((cs.length : ℝ)) * ((cs.length : ℝ))⁻¹ = 1 := by
    rw [mul_inv_cancel₀]
    simp only [ne_eq, Nat.cast_eq_zero, List.length_eq_zero]
    exact hne
  rcases hδ with hδ0 | hδ1
  · rw [hδ0, hlen]
    left
    norm_num
  · rw [hδ1]
    rcases Nat.eq_zero_or_pos cnt with hc0 | hcpos
    · rw [hc0]
      right
      norm_num
    · have : ((cnt : ℝ)) * ((cnt : ℝ))⁻¹ = 1 := by
        rw [mul_inv_cancel₀]
        positivity
      rw [this, hlen]
      left
      norm_num

end KD

namespace KD

theorem iscloseR_refl_one : iscloseR 1 1 := by
  unfold iscloseR
  norm_num

theorem not_iscloseR_zero_one : ¬ iscloseR 0 1 := by
  unfold iscloseR
  norm_num

theorem terminal_dict_facts (k : SKey) :
    DWF (dset dempty k 1) ∧ DNonneg (dset dempty k 1) ∧
    dsum (dset dempty k 1) = 1 := by
  refine ⟨dwf_dset dwf_empty k 1, ?_, ?_⟩
  · intro k' hk'
    rcases mem_dset.mp hk' with h | rfl
    · simp [dempty] at h
    · rw [dset_f_same]
      norm_num
  · rw [dsum_dset dwf_empty]
    simp [dempty, dsum]

theorem bruteOpt_facts (R : List KItem) (a : Args) (p : Params)
    (hv : validate p = true) (hpt : p.ptype = .OPTIMISATION)
    (ht : isTerminal a = false) :
    DWF (searchForOptimum R a p.delta p.alpha) ∧
    DNonneg (searchForOptimum R a p.delta p.alpha) ∧
    dsum (searchForOptimum R a p.delta p.alpha) ≤ 1 := by
  obtain ⟨w1, w2, w3, w4⟩ := searchForOptimum_spec R a p.delta p.alpha
  obtain ⟨_, _, hδ, _, hopt⟩ := validate_fields hv
  obtain ⟨hα0, hα1, _⟩ := hopt hpt
  have hδ1 : (p.delta : ℝ) ≤ 1 := by exact_mod_cast hδ.2
  have hδ0 : (0 : ℝ) ≤ (p.delta : ℝ) := by exact_mod_cast hδ.1
  have hpFn : 0 ≤ (1 - (p.delta : ℝ)) *
      Real.exp ((1 - ((termKeys a).card : ℝ)) *
        ((1 - (p.alpha : ℝ)) / (p.alpha : ℝ))) :=
    exp_share_nonneg (by linarith)
  have hpNn : 0 ≤ (p.delta : ℝ) *
      Real.exp ((1 - ((ndTermKeys R a).card : ℝ)) *
        ((1 - (p.alpha : ℝ)) / (p.alpha : ℝ))) :=
    exp_share_nonneg hδ0
  refine ⟨w1, ?_, ?_⟩
  · intro k _
    rw [w3 k]
    apply add_nonneg
    · by_cases h : k ∈ optTermKeys a
      · rw [if_pos h]
        apply div_nonneg hpFn
        positivity
      · rw [if_neg h]
    · by_cases h : k ∈ ndOptTermKeys R a
      · rw [if_pos h]
        apply div_nonneg hpNn
        positivity
      · rw [if_neg h]
  · rw [w4]
    have hT : 1 ≤ (termKeys a).card :=
      Finset.Nonempty.card_pos (termKeys_nonempty ht)
    have hn1 : (optTermKeys a).card ≠ 0 := by
      have := Finset.Nonempty.card_pos (optTermKeys_nonempty ht)
      omega
    have hpFle : (1 - (p.delta : ℝ)) *
        Real.exp ((1 - ((termKeys a).card : ℝ)) *
          ((1 - (p.alpha : ℝ)) / (p.alpha : ℝ))) ≤ 1 - (p.delta : ℝ) :=
      exp_share_le (by linarith) (exp_arg_nonpos hT hα0 hα1)
    rw [if_neg hn1]
    rcases Nat.eq_zero_or_pos (ndOptTermKeys R a).card with h2 | h2
    · rw [if_pos h2]
      linarith
    · have hN : 1 ≤ (ndTermKeys R a).card := by
        obtain ⟨x, hx⟩ := Finset.card_pos.mp h2
        have := ndOptTermKeys_subset R a hx
        exact Finset.card_pos.mpr ⟨x, this⟩
      have hpNle : (p.delta : ℝ) *
          Real.exp ((1 - ((ndTermKeys R a).card : ℝ)) *
            ((1 - (p.alpha : ℝ)) / (p.alpha : ℝ))) ≤ (p.delta : ℝ) :=
        exp_share_le hδ0 (exp_arg_nonpos hN hα0 hα1)
      rw [if_neg (by omega)]
      linarith

end KD

namespace KD

theorem dist_ok_spec (R : List KItem) :
    ∀ (f : ℕ) (a : Args) (p : Params), validate p = true →
      ∀ d, distFuel R f a p = .ok d →
        DWF d ∧ DNonneg d ∧ iscloseR (dsum d) 1 ∧ (isBaseline p → dsum d = 1) := by
  intro f
  induction f with
  | zero =>
    intro a p hv d hok
    rw [distFuel_zero] at hok
    cases hok
  | succ f ih =>
    intro a p hv d hok
    by_cases ht : isTerminal a = true
    · rw [distFuel_terminal R f a p hv ht] at hok
      injection hok with hok
      subst hok
      obtain ⟨t1, t2, t3⟩ := terminal_dict_facts (structKey a)
      exact ⟨t1, t2, by rw [t3]; exact iscloseR_refl_one, fun _ => t3⟩
    · have ht' : isTerminal a = false := by simpa using ht
      rw [distFuel_succ R f a p hv ht'] at hok
      split at hok
      · rename_i e heq; cases hok
      · rename_i bd heq
        have hbd : DWF bd ∧ DNonneg bd ∧ dsum bd ≤ 1 ∧
            (isBaseline p → bd = dempty) := by
          rw [bruteStage] at heq
          rcases hpt : p.ptype with _ | _ <;> rw [hpt] at heq
          · injection heq with heq
            subst heq
            obtain ⟨b1, b2, b3⟩ := bruteOpt_facts R a p hv hpt ht'
            exact ⟨b1, b2, b3, fun hb =>
              absurd (hb.2.2.2.2.symm.trans hpt) (by simp)⟩
          · by_cases hα : p.alpha = 0
            · rw [if_pos hα] at heq
              injection heq with heq
              subst heq
              exact ⟨dwf_empty, dnonneg_empty, by simp [dsum, dempty], fun _ => rfl⟩
            · rw [if_neg hα] at heq
              rcases h0 : distFuel R f a ⟨0, 0, 0, 0, .DECISION, p.threshold⟩ with e0 | d0
              · rw [h0] at heq; cases heq
              · rw [h0] at heq
                rcases h1 : distFuel R f a ⟨0, 0, 0, 1, .DECISION, p.threshold⟩ with e1 | d1
                · rw [h1] at heq; cases heq
                · rw [h1] at heq
                  injection heq with heq
                  subst heq
                  have hv0 : validate
                      (⟨0, 0, 0, 0, .DECISION, p.threshold⟩ : Params) = true :=
                    validate_baseline hv hpt (by norm_num)
                  have hv1 : validate
                      (⟨0, 0, 0, 1, .DECISION, p.threshold⟩ : Params) = true :=
                    validate_baseline hv hpt (by norm_num)
                  obtain ⟨e01, e02, _, e04⟩ := ih a _ hv0 d0 h0
                  obtain ⟨e11, e12, _, e14⟩ := ih a _ hv1 d1 h1
                  have hs0 : dsum d0 = 1 := e04 ⟨rfl, rfl, rfl, Or.inl rfl, rfl⟩
                  have hs1 : dsum d1 = 1 := e14 ⟨rfl, rfl, rfl, Or.inr rfl, rfl⟩
                  obtain ⟨g1, g2, g3, _⟩ := witnessPart_spec d0 d1
                    (p.threshold.getD 0) p.delta p.alpha e01 e11 e02 e12
                    (validate_fields hv).2.2.1
                    ⟨lt_of_le_of_ne ((validate_fields hv).2.2.2.1 hpt).1
                      (Ne.symm hα),
                     ((validate_fields hv).2.2.2.1 hpt).2.1⟩ hs0 hs1
                  exact ⟨g1, g2, g3, fun hb => absurd hb.1 hα⟩
        obtain ⟨hbwf, hbn, hble, hbbase⟩ := hbd
        split at hok
        · rename_i e heq2; cases hok
        · rename_i fd heq2
          unfold finishStage at hok
          by_cases hcl : iscloseR (dsum fd) 1
          · rw [if_pos hcl] at hok
            injection hok with hok
            subst hok
            rw [contStage] at heq2
            by_cases hres0 : (1 - dsum bd : ℝ) = 0
            · rw [if_pos hres0] at heq2
              injection heq2 with heq2
              subst heq2
              refine ⟨hbwf, hbn, hcl, fun hb => ?_⟩
              exfalso
              rw [hbbase hb] at hres0
              simp [dsum, dempty] at hres0
            · rw [if_neg hres0] at heq2
              obtain ⟨c1, c2, c3⟩ := contList_spec R f a p
                (fun a' d' h' => by
                  obtain ⟨x1, x2, _, x4⟩ := ih a' p hv d' h'
                  exact ⟨x1, x2, x4⟩)
                (1 - dsum bd) (by linarith) (validate_fields hv).2.2.1
                ((childNodes a).getD []) bd fd hbwf hbn heq2
              refine ⟨c1, c2, hcl, fun hb => ?_⟩
              have hbde := hbbase hb
              subst hbde
              have hres1 : (1 - dsum dempty : ℝ) = 1 := by
                simp [dsum, dempty]
              have hc3 := c3 hb
              rw [hres1] at hc3
              obtain ⟨cs, hcs⟩ := isTerminal_false_iff.mp ht'
              rw [hcs] at hc3
              simp only [Option.getD_some] at hc3
              rcases baseline_coef_sum R a p hb hcs with hcoef | hcoef
              · rw [hcoef] at hc3
                rw [hc3]
                simp [dsum, dempty]
              · rw [hcoef] at hc3
                have : dsum fd = 0 := by
                  rw [hc3]
                  simp [dsum, dempty]
                rw [this] at hcl
                exact absurd hcl not_iscloseR_zero_one
          · rw [if_neg hcl] at hok; cases hok

end KD

namespace KD

/-- **C1.**  For every node and valid parameter tuple, the engine either
returns a mapping whose masses are all non-negative with total mass equal to
1 within the `math.isclose` tolerance, or raises the `RuntimeError` of the
final mass check instead of returning a result. -/
theorem claim_C1 (R : List KItem) (a : Args) (p : Params)
    (hv : validate p = true) :
    (∃ d, getDist R a p = .ok d ∧ (∀ k ∈ d.ks, 0 ≤ d.f k) ∧
      iscloseR (dsum d) 1) ∨
    getDist R a p = .error .runtime := by
  unfold getDist
  rcases hr : distFuel R (a.items.length + 2) a p with e | d
  · cases e
    · exact absurd hr (distFuel_no_validation R _ a p hv)
    · exact Or.inr rfl
    · exact absurd hr (distFuel_sufficient R _ a p hv
        (by unfold fuelNeed; split <;> omega))
  · obtain ⟨_, h2, h3, _⟩ := dist_ok_spec R _ a p hv d hr
    exact Or.inl ⟨d, rfl, h2, h3⟩

theorem addChildMass_keys (R : List KItem) (a : Args) (p : Params)
    (residual : ℝ) (it : KItem) (cd d : PDict) :
    ∀ k ∈ (addChildMass R a p residual it cd d).ks, k ∈ d.ks ∨ k ∈ cd.ks := by
  intro k hk
  have haddeq : addChildMass R a p residual it cd d =
      cd.ks.foldl (fun (d'' : PDict) (k : SKey) =>
        let d2 := dadd d'' k (residual * (1 - (p.delta : ℝ)) *
          (wfac it p.beta p.gamma / wAllOf a p) * cd.f k)
        if it.id ∈ nonDomItems R a then
          dadd d2 k (residual * (p.delta : ℝ) *
            (wfac it p.beta p.gamma / wNdOf R a p) * cd.f k)
        else d2) d := by
    rw [addChildMass]
    rfl
  rw [haddeq] at hk
  have := foldl_step_mem (fun (d'' : PDict) (k : SKey) =>
        let d2 := dadd d'' k (residual * (1 - (p.delta : ℝ)) *
          (wfac it p.beta p.gamma / wAllOf a p) * cd.f k)
        if it.id ∈ nonDomItems R a then
          dadd d2 k (residual * (p.delta : ℝ) *
            (wfac it p.beta p.gamma / wNdOf R a p) * cd.f k)
        else d2) (fun b => b)
      (fun d' b k' hk' => by
        by_cases h : it.id ∈ nonDomItems R a
        · simp only [h, if_true] at hk'
          rcases mem_dadd.mp hk' with h' | rfl
          · exact mem_dadd.mp h'
          · exact Or.inr rfl
        · simp only [h, if_false] at hk'
          exact mem_dadd.mp hk')
      cd.ks d k hk
  rcases this with h | ⟨b, hb, rfl⟩
  · exact Or.inl h
  · exact Or.inr hb

theorem contList_keys (R : List KItem) (f : ℕ) (a : Args) (p : Params)
    (residual : ℝ) :
    ∀ (l : List (KItem × Args)),
      (∀ q ∈ l, ∀ cd : PDict, distFuel R f q.2 p = .ok cd →
        ∀ k ∈ cd.ks, k ∈ termKeys a) →
      ∀ (d fd : PDict), contList R f a p residual l d = .ok fd →
      ∀ k ∈ fd.ks, k ∈ d.ks ∨ k ∈ termKeys a := by
  intro l
  induction l with
  | nil =>
    intro _ d fd hok k hk
    rw [contList] at hok
    injection hok with hok
    subst hok
    exact Or.inl hk
  | cons q rest ih =>
    intro hch d fd hok k hk
    obtain ⟨it, c⟩ := q
    rw [contList] at hok
    rcases hc : distFuel R f c p with e | cd
    · rw [hc] at hok; cases hok
    · rw [hc] at hok
      rcases ih (fun q hq => hch q (List.mem_cons_of_mem _ hq)) _ fd hok k hk with h | h
      · rcases addChildMass_keys R a p residual it cd d k h with h' | h'
        · exact Or.inl h'
        · exact Or.inr (hch (it, c) (List.mem_cons_self _ _) cd hc k h')
      · exact Or.inr h

theorem dist_keys (R : List KItem) :
    ∀ (f : ℕ) (a : Args) (p : Params), validate p = true →
      ∀ d, distFuel R f a p = .ok d →
        ∀ k ∈ d.ks, (isTerminal a = true ∧ k = structKey a) ∨ k ∈ termKeys a := by
  intro f
  induction f with
  | zero =>
    intro a p hv d hok
    rw [distFuel_zero] at hok
    cases hok
  | succ f ih =>
    intro a p hv d hok
    by_cases ht : isTerminal a = true
    · rw [distFuel_terminal R f a p hv ht] at hok
      injection hok with hok
      subst hok
      intro k hk
      rcases mem_dset.mp hk with h | rfl
      · simp [dempty] at h
      · exact Or.inl ⟨ht, rfl⟩
    · have ht' : isTerminal a = false := by simpa using ht
      rw [distFuel_succ R f a p hv ht'] at hok
      split at hok
      · rename_i e heq; cases hok
      · rename_i bd heq
        have hbdk : ∀ k ∈ bd.ks, k ∈ termKeys a := by
          rw [bruteStage] at heq
          rcases hpt : p.ptype with _ | _ <;> rw [hpt] at heq
          · injection heq with heq
            subst heq
            obtain ⟨_, w2, _, _⟩ := searchForOptimum_spec R a p.delta p.alpha
            intro k hk
            rw [w2, Finset.mem_toList] at hk
            exact optTermKeys_subset a hk
          · by_cases hα : p.alpha = 0
            · rw [if_pos hα] at heq
              injection heq with heq
              subst heq
              intro k hk
              simp [dempty] at hk
            · rw [if_neg hα] at heq
              rcases h0 : distFuel R f a ⟨0, 0, 0, 0, .DECISION, p.threshold⟩ with e0 | d0
              · rw [h0] at heq; cases heq
              · rw [h0] at heq
                rcases h1 : distFuel R f a ⟨0, 0, 0, 1, .DECISION, p.threshold⟩ with e1 | d1
                · rw [h1] at heq; cases heq
                · rw [h1] at heq
                  injection heq with heq
                  subst heq
                  have hv0 : validate
                      (⟨0, 0, 0, 0, .DECISION, p.threshold⟩ : Params) = true :=
                    validate_baseline hv hpt (by norm_num)
                  have hv1 : validate
                      (⟨0, 0, 0, 1, .DECISION, p.threshold⟩ : Params) = true :=
                    validate_baseline hv hpt (by norm_num)
                  have hd0k := ih a _ hv0 d0 h0
                  have hd1k := ih a _ hv1 d1 h1
                  have hs0 : dsum d0 = 1 :=
                    (dist_ok_spec R f a _ hv0 d0 h0).2.2.2
                      ⟨rfl, rfl, rfl, Or.inl rfl, rfl⟩
                  have hs1 : dsum d1 = 1 :=
                    (dist_ok_spec R f a _ hv1 d1 h1).2.2.2
                      ⟨rfl, rfl, rfl, Or.inr rfl, rfl⟩
                  obtain ⟨o01, o02, _, _⟩ := dist_ok_spec R f a _ hv0 d0 h0
                  obtain ⟨o11, o12, _, _⟩ := dist_ok_spec R f a _ hv1 d1 h1
                  obtain ⟨_, _, _, g4⟩ := witnessPart_spec d0 d1
                    (p.threshold.getD 0) p.delta p.alpha o01 o11 o02 o12
                    (validate_fields hv).2.2.1
                    ⟨lt_of_le_of_ne ((validate_fields hv).2.2.2.1 hpt).1
                      (Ne.symm hα),
                     ((validate_fields hv).2.2.2.1 hpt).2.1⟩ hs0 hs1
                  intro k hk
                  rcases g4 k hk with h | h
                  · rcases hd0k k h with ⟨hterm, _⟩ | h'
                    · rw [hterm] at ht'; cases ht'
                    · exact h'
                  · rcases hd1k k h with ⟨hterm, _⟩ | h'
                    · rw [hterm] at ht'; cases ht'
                    · exact h'
        split at hok
        · rename_i e heq2; cases hok
        · rename_i fd heq2
          unfold finishStage at hok
          by_cases hcl : iscloseR (dsum fd) 1
          · rw [if_pos hcl] at hok
            injection hok with hok
            subst hok
            rw [contStage] at heq2
            by_cases hres0 : (1 - dsum bd : ℝ) = 0
            · rw [if_pos hres0] at heq2
              injection heq2 with heq2
              subst heq2
              intro k hk
              exact Or.inr (hbdk k hk)
            · rw [if_neg hres0] at heq2
              obtain ⟨cs, hcs⟩ := isTerminal_false_iff.mp ht'
              rw [hcs] at heq2
              simp only [Option.getD_some] at heq2
              have hch : ∀ q ∈ cs, ∀ cd : PDict, distFuel R f q.2 p = .ok cd →
                  ∀ k ∈ cd.ks, k ∈ termKeys a := by
                intro q hq cd hc k hk
                rcases ih q.2 p hv cd hc k hk with ⟨hterm, hkey⟩ | h
                · rw [hkey]
                  exact structKey_child_mem_termKeys hcs hq hterm
                · by_cases hqt : isTerminal q.2 = true
                  · exfalso
                    have : childNodes q.2 = none := by
                      unfold isTerminal at hqt
                      exact Option.isNone_iff_eq_none.mp hqt
                    rw [termKeys_none this] at h
                    simp at h
                  · exact termKeys_child_subset hcs hq (by simpa using hqt) h
              intro k hk
              rcases contList_keys R f a p _ cs hch bd fd heq2 k hk with h | h
              · exact Or.inr (hbdk k h)
              · exact Or.inr h
          · rw [if_neg hcl] at hok; cases hok

end KD

namespace KD

/-- **C10.**  Whenever `get_node_distribution` returns a mapping, every key
of the mapping is a terminal node: the node itself when it is terminal, and
otherwise a member of its aggregated terminal-descendant set. -/
theorem claim_C10 (R : List KItem) (a : Args) (p : Params) (d : PDict) (k : SKey)
    (hv : validate p = true) (hok : getDist R a p = .ok d) (hk : k ∈ d.ks) :
    (isTerminal a = true ∧ k = structKey a) ∨
    (isTerminal a = false ∧ k ∈ termKeys a) := by
  have hok' : distFuel R (a.items.length + 2) a p = .ok d := hok
  rcases dist_keys R _ a p hv d hok' k hk with h | h
  · exact Or.inl h
  · by_cases ht : isTerminal a = true
    · exfalso
      have hn : childNodes a = none := by
        unfold isTerminal at ht
        exact Option.isNone_iff_eq_none.mp ht
      rw [termKeys_none hn] at h
      simp at h
    · exact Or.inr ⟨by simpa using ht, h⟩

/-- **C2.**  For every non-terminal node under the OPTIMISATION variant the
brute-force stage succeeds with the dict laying
`(1-δ)·exp((1-T)·(1-α)/α)` split evenly over the optimal terminal
descendants, plus `δ·exp((1-N)·(1-α)/α)` split evenly over the
non-dominated optimal terminal descendants and added on top. -/
theorem claim_C2 (R : List KItem) (f : ℕ) (a : Args) (p : Params)
    (hpt : p.ptype = .OPTIMISATION) (ht : isTerminal a = false) :
    ∃ bd, bruteStage R f a p = .ok bd ∧
      bd.ks = (optTermKeys a).toList ∧
      ∀ t, bd.f t =
        (if t ∈ optTermKeys a then
          ((1 - (p.delta : ℝ)) *
            Real.exp ((1 - ((termKeys a).card : ℝ)) *
              ((1 - (p.alpha : ℝ)) / (p.alpha : ℝ)))) / ((optTermKeys a).card : ℝ)
         else 0) +
        (if t ∈ ndOptTermKeys R a then
          ((p.delta : ℝ) *
            Real.exp ((1 - ((ndTermKeys R a).card : ℝ)) *
              ((1 - (p.alpha : ℝ)) / (p.alpha : ℝ)))) / ((ndOptTermKeys R a).card : ℝ)
         else 0) := by
  obtain ⟨pa, pb, pg, pd, ppt, pth⟩ := p
  simp only at hpt
  subst hpt
  obtain ⟨_, w2, w3, _⟩ := searchForOptimum_spec R a pd pa
  exact ⟨searchForOptimum R a pd pa, rfl, w2, w3⟩

/-- **C6.**  Under the DECISION variant with α = 0 the brute-force stage
yields the empty dict (both success probabilities are 0: the witness search
is skipped and all mass flows through the child continuation started from
the full residual 1), and for every node and valid parameter tuple the
engine never exhausts its call-stack fuel: the baseline self-calls use α = 0
and never recurse into the witness search again. -/
theorem claim_C6 (R : List KItem) (f : ℕ) (a : Args) (p : Params)
    (hv : validate p = true) (hpt : p.ptype = .DECISION) (hα : p.alpha = 0) :
    bruteStage R f a p = .ok dempty ∧ dsum dempty = 0 ∧
    (isTerminal a = false →
      distFuel R (f + 1) a p =
        match contList R f a p 1 ((childNodes a).getD []) dempty with
        | .error e => (.error e : Except KError PDict)
        | .ok fd => finishStage fd) ∧
    (∀ (b : Args) (q : Params), validate q = true →
      getDist R b q ≠ .error .fuel) := by
  have hb : bruteStage R f a p = .ok dempty := by
    rw [bruteStage, hpt, if_pos hα]
  have hd0 : dsum dempty = 0 := by simp [dsum, dempty]
  refine ⟨hb, hd0, ?_, ?_⟩
  · intro ht
    rw [distFuel_succ R f a p hv ht, hb]
    show (match contStage R f a p dempty with
          | .error e => (.error e : Except KError PDict)
          | .ok fd => finishStage fd) = _
    rw [contStage, if_neg (by rw [hd0]; norm_num)]
    have h1 : (1 - dsum dempty : ℝ) = 1 := by rw [hd0]; norm_num
    rw [h1]
  · intro b q hvq h
    exact distFuel_sufficient R (b.items.length + 2) b q hvq
      (by unfold fuelNeed; split <;> omega) h

/-- **C3 (code bug).**  The memo key of `get_node_distribution` hashes only
`(β, α, γ, δ, problem_type, node)` — the value threshold is left out of the
key string — so a distribution stored under one threshold is returned
unchanged, without recomputation or validation, to a later call that agrees
on the five hashed components but asks for a different threshold. -/
theorem claim_C3 (R : List KItem) (f : ℕ) (a : Args)
    (al be ga de : ℚ) (pt : ProblemType) (t t' : Option ℤ)
    (m : Memo) (d : PDict)
    (hm : mfind m (mkey a ⟨al, be, ga, de, pt, t⟩) = some d) :
    mkey a ⟨al, be, ga, de, pt, t⟩ = mkey a ⟨al, be, ga, de, pt, t'⟩ ∧
    distM R (f + 1) a ⟨al, be, ga, de, pt, t'⟩ m = (.ok d, m) := by
  refine ⟨rfl, ?_⟩
  have hm' : mfind m (mkey a ⟨al, be, ga, de, pt, t'⟩) = some d := hm
  rw [distM, hm']

end KD

namespace KD

/-- Concrete items, nodes and parameter tuples on which the development is
evaluated below. -/
def exItem0 : KItem := ⟨1, 1, 0⟩

def exItem1 : KItem := ⟨2, 1, 1⟩

def exR : List KItem := [exItem0, exItem1]

/-- A non-terminal node: two eligible items, both fitting. -/
def exA : Args := ⟨[exItem0, exItem1], 2, 0, [], none⟩

/-- A terminal node: exactly one eligible item. -/
def exA1 : Args := ⟨[exItem0], 1, 0, [], none⟩

def exPopt : Params := ⟨1, 0, 0, 0, .OPTIMISATION, none⟩

def exPdec0 : Params := ⟨0, 0, 0, 0, .DECISION, some 0⟩

def regEmpty : Reg := ([] : List (SKey × NodeR))

def memoEmpty : Memo := ([] : List (MKey × PDict))

theorem mfind_mstore_self (m : Memo) (k : MKey) (d : PDict) :
    mfind (mstore m k d) k = some d := by
  unfold mfind mstore
  rw [List.find?_cons_of_pos _ (by simp)]
  rfl

/-- A memo holding a distribution stored under threshold `0`. -/
noncomputable def exMemo : Memo :=
  mstore memoEmpty (mkey exA ⟨0, 0, 0, 0, .DECISION, some 0⟩) dempty

theorem claim_C1_witness :
    (∃ d, getDist exR exA exPopt = .ok d ∧ (∀ k ∈ d.ks, 0 ≤ d.f k) ∧
      iscloseR (dsum d) 1) ∨
    getDist exR exA exPopt = .error .runtime :=
  claim_C1 exR exA exPopt (by decide)

theorem claim_C2_witness :
    ∃ bd, bruteStage exR 2 exA exPopt = .ok bd ∧
      bd.ks = (optTermKeys exA).toList ∧
      ∀ t, bd.f t =
        (if t ∈ optTermKeys exA then
          ((1 - (exPopt.delta : ℝ)) *
            Real.exp ((1 - ((termKeys exA).card : ℝ)) *
              ((1 - (exPopt.alpha : ℝ)) / (exPopt.alpha : ℝ)))) /
            ((optTermKeys exA).card : ℝ)
         else 0) +
        (if t ∈ ndOptTermKeys exR exA then
          ((exPopt.delta : ℝ) *
            Real.exp ((1 - ((ndTermKeys exR exA).card : ℝ)) *
              ((1 - (exPopt.alpha : ℝ)) / (exPopt.alpha : ℝ)))) /
            ((ndOptTermKeys exR exA).card : ℝ)
         else 0) :=
  claim_C2 exR 2 exA exPopt rfl (by decide)

theorem claim_C3_witness :
    mkey exA ⟨0, 0, 0, 0, .DECISION, some 0⟩ =
      mkey exA ⟨0, 0, 0, 0, .DECISION, some 1⟩ ∧
    distM exR (0 + 1) exA ⟨0, 0, 0, 0, .DECISION, some 1⟩ exMemo =
      (.ok dempty, exMemo) :=
  claim_C3 exR 0 exA 0 0 0 0 .DECISION (some 0) (some 1) exMemo dempty
    (mfind_mstore_self memoEmpty _ dempty)

theorem claim_C5_witness :
    createReg exA (createReg exA regEmpty).2 =
      ((createReg exA regEmpty).1, (createReg exA regEmpty).2) :=
  claim_C5 exA exA regEmpty rfl

theorem claim_C6_witness :
    bruteStage exR 2 exA exPdec0 = .ok dempty ∧ dsum dempty = 0 ∧
    (isTerminal exA = false →
      distFuel exR (2 + 1) exA exPdec0 =
        match contList exR 2 exA exPdec0 1 ((childNodes exA).getD []) dempty with
        | .error e => (.error e : Except KError PDict)
        | .ok fd => finishStage fd) ∧
    (∀ (b : Args) (q : Params), validate q = true →
      getDist exR b q ≠ .error .fuel) :=
  claim_C6 exR 2 exA exPdec0 (by decide) rfl rfl

theorem claim_C10_witness :
    (isTerminal exA1 = true ∧ structKey exA1 = structKey exA1) ∨
    (isTerminal exA1 = false ∧ structKey exA1 ∈ termKeys exA1) :=
  claim_C10 exR exA1 exPopt (dset dempty (structKey exA1) 1) (structKey exA1)
    (by decide) (distFuel_terminal exR 2 exA1 exPopt (by decide) (by decide))
    (mem_dset.mpr (Or.inr rfl))

end KD
